import Mathlib

/-!
Verification of the health_sync repository against its specification.

The Python source under src/health_sync is shallowly embedded below:
pure functions become Lean functions over ℤ/ℚ/String/List, timestamps are
naive local wall-clock values (seconds or minutes since a fixed epoch,
matching the code's "parse, normalize once, compare naively" convention),
fallible code returns Option/Except, and the Google-Sheets store is a list
of rows (the data range below the header row).
-/

namespace HealthSync

/-! ## Unit conversions (health_sync/utils.py)

Python `round` rounds halves to the even neighbour; `Decimal.quantize`
with `ROUND_HALF_UP` rounds halves away from zero.  Numbers are modelled
as exact rationals: every concrete value appearing in the claims is exact
in binary floating point as well, and `str(float)` round-trips shortest
representations, so the Decimal path sees the same numerals.
-/

/-- Python built-in `round` to an integer: round half to even. -/
def pyRound (q : ℚ) : ℤ :=
  let f := ⌊q⌋
  let r := q - (f : ℚ)
  if r < 1/2 then f
  else if 1/2 < r then f + 1
  else if f % 2 = 0 then f else f + 1

/-- Decimal `quantize(…, ROUND_HALF_UP)` to an integer: round half away from zero. -/
def decimalHalfUp (q : ℚ) : ℤ :=
  if 0 ≤ q then ⌊q + 1/2⌋ else -⌊(1/2) - q⌋

/-- utils.seconds_to_minutes: `int(round(value_seconds / 60))`. -/
def seconds_to_minutes : Option ℚ → Option ℤ
  | none => none
  | some v => some (pyRound (v / 60))

/-- utils.round_2dp: `Decimal(str(value)).quantize(Decimal("0.01"), ROUND_HALF_UP)`. -/
def round_2dp : Option ℚ → Option ℚ
  | none => none
  | some v => some ((decimalHalfUp (v * 100) : ℚ) / 100)

/-- utils.meters_to_km: `round_2dp(value_meters / 1000.0)`. -/
def meters_to_km : Option ℚ → Option ℚ
  | none => none
  | some v => round_2dp (some (v / 1000))

/-- utils.speed_kmh_to_pace_min_per_km: `None` on `None` or zero, else `round_2dp(60.0 / kmh)`. -/
def speed_kmh_to_pace_min_per_km : Option ℚ → Option ℚ
  | none => none
  | some kmh => if kmh = 0 then none else round_2dp (some (60 / kmh))

/-- utils.mps_to_speed_and_pace: `(None, None)` on `None` or zero, else
`(round_2dp(mps * 3.6), pace(mps * 3.6))`. -/
def mps_to_speed_and_pace : Option ℚ → Option ℚ × Option ℚ
  | none => (none, none)
  | some mps =>
      if mps = 0 then (none, none)
      else
        let kmh := mps * (18/5)
        (round_2dp (some kmh), speed_kmh_to_pace_min_per_km (some kmh))

/-- Modelled from the spec: "seconds→minutes (round-half-up to nearest integer)".
This is the spec's claimed rounding rule, to be compared with the code's
`seconds_to_minutes` above. -/
def secondsToMinutesSpecHalfUp (v : ℚ) : ℤ :=
  decimalHalfUp (v / 60)

/-! ## Garmin timestamp formatting (health_sync/sources/garmin.py, `_to_hm`)

`_to_hm` accepts an ISO string, an `HH:MM(:SS)` string, or numeric epoch
seconds/milliseconds, and renders `%H:%M` after adding `shift_hours`
(default −1).  The string-parsing outcomes are represented by an input
variant type; wall-clock instants are minutes since a fixed epoch
(`fromtimestamp` renders in the configured local timezone, which the
embedding treats as the identity to local wall-clock). -/

/-- The recognized shapes of a `_to_hm` input after parsing. -/
inductive GarminTs
  | epoch (v : ℚ)
  | isoT (minutes : ℤ)
  | hm (hh mm : ℤ)
  | bad
deriving DecidableEq

/-- Two-digit decimal rendering used by `%H` and `%M`. -/
def pad2 (n : ℕ) : String :=
  if n < 10 then "0" ++ toString n else toString n

/-- strftime `%H:%M` of a naive datetime sitting `totalMin` minutes from the epoch. -/
def formatHM (totalMin : ℤ) : String :=
  let m := (totalMin % 1440).toNat
  pad2 (m / 60) ++ ":" ++ pad2 (m % 60)

/-- garmin._to_hm.  Epoch values above 1e12 are treated as milliseconds;
an `HH:MM` string outside `datetime`'s field ranges raises and yields `None`. -/
def to_hm (shift_hours : ℤ) : GarminTs → Option String
  | .epoch v =>
      let sec : ℚ := if v > 10 ^ 12 then v / 1000 else v
      some (formatHM (⌊sec / 60⌋ + shift_hours * 60))
  | .isoT t => some (formatHM (t + shift_hours * 60))
  | .hm hh mm =>
      if 0 ≤ hh ∧ hh < 24 ∧ 0 ≤ mm ∧ mm < 60 then
        some (formatHM (hh * 60 + mm + shift_hours * 60))
      else none
  | .bad => none

/-- The provider's wall-clock minutes for a parseable `_to_hm` input
(the value `_to_hm` would render with a zero shift). -/
def wallMinutes : GarminTs → Option ℤ
  | .epoch v =>
      let sec : ℚ := if v > 10 ^ 12 then v / 1000 else v
      some ⌊sec / 60⌋
  | .isoT t => some t
  | .hm hh mm =>
      if 0 ≤ hh ∧ hh < 24 ∧ 0 ≤ mm ∧ mm < 60 then some (hh * 60 + mm) else none
  | .bad => none

/-- garmin.fetch_day line 426: `bedtime_hm = _to_hm(bedtime, shift_hours=-1)`. -/
def garminBedtimeHm (raw : GarminTs) : Option String := to_hm (-1) raw

/-- garmin.fetch_day line 427: `waketime_hm = _to_hm(waketime, shift_hours=-1)`. -/
def garminWakeHm (raw : GarminTs) : Option String := to_hm (-1) raw

/-! ## Canonical header and the sheets module load (models.py, sheets.py) -/

/-- health_sync/__init__.py `UNIFIED_HEADER`: the fixed 23-column canonical order. -/
def UNIFIED_HEADER : List String :=
  ["date", "source", "bedtime", "wake_time", "sleep_duration_min", "sleep_score",
   "rhr_bpm", "hrv_ms", "readiness_or_body_battery_score", "health_score", "steps",
   "active_calories", "activity_score", "workout_type", "workout_duration_min",
   "workout_active_calories", "workout_avg_hr_bpm", "workout_max_hr_bpm",
   "distance_km", "pace_min_per_km", "avg_speed_kmh", "workout_or_strain_score",
   "source_record_id"]

/-- The attributes defined on the `UnifiedRow` class in models.py: its 23
pydantic fields and the single method `as_row`.  Neither models.py nor the
pydantic `BaseModel` base class defines `headers`, so Python attribute lookup
of `UnifiedRow.headers` raises `AttributeError`. -/
def unifiedRowClassAttributes : List String :=
  UNIFIED_HEADER ++ ["as_row"]

/-- Evaluating the module-level binding `HEADER = UnifiedRow.headers()` in
sheets.py: succeeds only if `UnifiedRow` has a `headers` attribute. -/
def sheetsModuleInit : Except String (List String) :=
  if unifiedRowClassAttributes.contains "headers" then .ok UNIFIED_HEADER
  else .error "AttributeError: type object UnifiedRow has no attribute headers"

/-! ## Window assignment (health_sync/sources/oura.py and polar.py)

Sessions carry parsed timestamps as naive local wall-clock seconds
(`Option ℤ`; `None` for unparseable fields, mirroring `_parse_iso`).  The
target day's window is `[dayStart, dayStart + 86400)` where `dayStart` is
the configured day boundary applied to the date (`_window_day` /
`datetime.combine(day, time(0,0))`).  Python's `list.sort` is a stable
ascending sort, modelled by `List.insertionSort`; `sorted[-1]` is `getLast?`. -/

/-- Lexicographic order by two measures, as Python compares 2-tuples. -/
def lexLe2 {α β γ : Type} [LinearOrder β] [LinearOrder γ]
    (f : α → β) (g : α → γ) (a b : α) : Prop :=
  f a < f b ∨ (f a = f b ∧ g a ≤ g b)

/-- Lexicographic order by three measures, as Python compares 3-tuples. -/
def lexLe3 {α β γ δ : Type} [LinearOrder β] [LinearOrder γ] [LinearOrder δ]
    (f : α → β) (g : α → γ) (h : α → δ) (a b : α) : Prop :=
  f a < f b ∨ (f a = f b ∧ (g a < g b ∨ (g a = g b ∧ h a ≤ h b)))

instance {α β γ : Type} [LinearOrder β] [LinearOrder γ] (f : α → β) (g : α → γ) :
    DecidableRel (lexLe2 f g) := fun a b => by
  unfold lexLe2; infer_instance

instance {α β γ δ : Type} [LinearOrder β] [LinearOrder γ] [LinearOrder δ]
    (f : α → β) (g : α → γ) (h : α → δ) :
    DecidableRel (lexLe3 f g h) := fun a b => by
  unfold lexLe3; infer_instance

instance {α β γ : Type} [LinearOrder β] [LinearOrder γ] (f : α → β) (g : α → γ) :
    IsRefl α (lexLe2 f g) :=
  ⟨fun _ => Or.inr ⟨rfl, le_refl _⟩⟩

instance {α β γ δ : Type} [LinearOrder β] [LinearOrder γ] [LinearOrder δ]
    (f : α → β) (g : α → γ) (h : α → δ) :
    IsRefl α (lexLe3 f g h) :=
  ⟨fun _ => Or.inr ⟨rfl, Or.inr ⟨rfl, le_refl _⟩⟩⟩

instance {α β γ : Type} [LinearOrder β] [LinearOrder γ] (f : α → β) (g : α → γ) :
    IsTotal α (lexLe2 f g) := by
  constructor
  intro a b
  rcases lt_trichotomy (f a) (f b) with hf | hf | hf
  · exact Or.inl (Or.inl hf)
  · rcases le_total (g a) (g b) with hg | hg
    · exact Or.inl (Or.inr ⟨hf, hg⟩)
    · exact Or.inr (Or.inr ⟨hf.symm, hg⟩)
  · exact Or.inr (Or.inl hf)

instance {α β γ δ : Type} [LinearOrder β] [LinearOrder γ] [LinearOrder δ]
    (f : α → β) (g : α → γ) (h : α → δ) :
    IsTotal α (lexLe3 f g h) := by
  constructor
  intro a b
  rcases lt_trichotomy (f a) (f b) with hf | hf | hf
  · exact Or.inl (Or.inl hf)
  · rcases lt_trichotomy (g a) (g b) with hg | hg | hg
    · exact Or.inl (Or.inr ⟨hf, Or.inl hg⟩)
    · rcases le_total (h a) (h b) with hh | hh
      · exact Or.inl (Or.inr ⟨hf, Or.inr ⟨hg, hh⟩⟩)
      · exact Or.inr (Or.inr ⟨hf.symm, Or.inr ⟨hg.symm, hh⟩⟩)
    · exact Or.inr (Or.inr ⟨hf.symm, Or.inl hg⟩)
  · exact Or.inr (Or.inl hf)

instance {α β γ : Type} [LinearOrder β] [LinearOrder γ] (f : α → β) (g : α → γ) :
    IsTrans α (lexLe2 f g) := by
  constructor
  rintro a b c (hab | ⟨hab, hab2⟩) (hbc | ⟨hbc, hbc2⟩)
  · exact Or.inl (hab.trans hbc)
  · exact Or.inl (hbc ▸ hab)
  · exact Or.inl (hab ▸ hbc)
  · exact Or.inr ⟨hab.trans hbc, hab2.trans hbc2⟩

instance {α β γ δ : Type} [LinearOrder β] [LinearOrder γ] [LinearOrder δ]
    (f : α → β) (g : α → γ) (h : α → δ) :
    IsTrans α (lexLe3 f g h) := by
  constructor
  rintro a b c (hab | ⟨hab, hab'⟩) (hbc | ⟨hbc, hbc'⟩)
  · exact Or.inl (hab.trans hbc)
  · exact Or.inl (hbc ▸ hab)
  · exact Or.inl (hab ▸ hbc)
  · refine Or.inr ⟨hab.trans hbc, ?_⟩
    rcases hab' with hab2 | ⟨hab2, hab3⟩ <;> rcases hbc' with hbc2 | ⟨hbc2, hbc3⟩
    · exact Or.inl (hab2.trans hbc2)
    · exact Or.inl (hbc2 ▸ hab2)
    · exact Or.inl (hab2 ▸ hbc2)
    · exact Or.inr ⟨hab2.trans hbc2, hab3.trans hbc3⟩

/-- Strict `>` comparison on Python 2-tuples `(overlap, is_long)`, used by
oura's fallback loop (`(overlap, is_long) > best_key`); stated as `<`. -/
def pairLt (a b : ℚ × ℕ) : Prop :=
  a.1 < b.1 ∨ (a.1 = b.1 ∧ a.2 < b.2)

instance : DecidableRel pairLt := fun a b => by
  unfold pairLt; infer_instance

/-- One Oura sleep period, with parsed `bedtime_start`/`bedtime_end`
(seconds, `none` if `_parse_iso` fails), the raw `type` tag and `duration`. -/
structure OuraPeriod where
  bedtimeStart : Option ℤ
  bedtimeEnd : Option ℤ
  ptype : Option String
  duration : Option ℚ
deriving DecidableEq

/-- `1 if p.get("type") == "long_sleep" else 0`. -/
def preferN (p : OuraPeriod) : ℕ :=
  if p.ptype = some "long_sleep" then 1 else 0

/-- `float(p.get("duration", 0) or 0)`. -/
def durQ (p : OuraPeriod) : ℚ :=
  p.duration.getD 0

/-- Candidate builder of oura._pick_sleep_ending_in_day: a period whose
parsed `bedtime_end` falls in `[dayStart, wEnd)` contributes its sort tuple
`(prefer, dur, end, period)`; others are skipped. -/
def ouraContainCand (dayStart wEnd : ℤ) (p : OuraPeriod) :
    Option (ℕ × ℚ × ℤ × OuraPeriod) :=
  match p.bedtimeEnd with
  | none => none
  | some e =>
      if dayStart ≤ e ∧ e < wEnd then some (preferN p, durQ p, e, p) else none

/-- The ascending tuple order `(prefer, dur, end)` of the candidate sort
(`candidates.sort(key=lambda t: (t[0], t[1], t[2]))`). -/
def ouraCandLe (a b : ℕ × ℚ × ℤ × OuraPeriod) : Prop :=
  lexLe3 (fun t : ℕ × ℚ × ℤ × OuraPeriod => t.1) (fun t => t.2.1) (fun t => t.2.2.1) a b

instance : DecidableRel ouraCandLe := fun a b => by
  unfold ouraCandLe; infer_instance

instance : IsTotal (ℕ × ℚ × ℤ × OuraPeriod) ouraCandLe := by
  unfold ouraCandLe; infer_instance

instance : IsTrans (ℕ × ℚ × ℤ × OuraPeriod) ouraCandLe := by
  unfold ouraCandLe; infer_instance

instance : IsRefl (ℕ × ℚ × ℤ × OuraPeriod) ouraCandLe := by
  unfold ouraCandLe; infer_instance

/-- oura._pick_sleep_ending_in_day: keep periods whose `bedtime_end` falls in
the day window, sort by `(prefer, dur, end)` ascending, take the last. -/
def pick_sleep_ending_in_day (periods : List OuraPeriod) (dayStart : ℤ) :
    Option OuraPeriod :=
  match periods with
  | [] => none
  | _ :: _ =>
    (((periods.filterMap (ouraContainCand dayStart (dayStart + 86400))).insertionSort
        ouraCandLe).getLast?).map
      fun t => t.2.2.2

/-- `max(0.0, (min(a_end, b_end) - max(a_start, b_start)).total_seconds())`. -/
def overlap_seconds (aStart aEnd bStart bEnd : ℤ) : ℚ :=
  max 0 ((min aEnd bEnd - max aStart bStart : ℤ) : ℚ)

/-- Loop body of oura._pick_sleep_for_day: update `(best, best_key)` when a
parseable period's `(overlap, is_long)` strictly exceeds the running key;
skip periods with an unparseable timestamp. -/
def ouraFallbackStep (dayStart wEnd : ℤ) (acc : Option OuraPeriod × ℚ × ℕ)
    (p : OuraPeriod) : Option OuraPeriod × ℚ × ℕ :=
  match p.bedtimeStart, p.bedtimeEnd with
  | some s, some e =>
      let key : ℚ × ℕ := (overlap_seconds s e dayStart wEnd, preferN p)
      if pairLt (acc.2.1, acc.2.2) key then (some p, key.1, key.2) else acc
  | _, _ => acc

/-- oura._pick_sleep_for_day: fold over the periods keeping the first session
that strictly improves `(overlap, is_long)` over the running best, whose key
starts at `(-1.0, 0)`; unparseable timestamps are skipped. -/
def pick_sleep_for_day (periods : List OuraPeriod) (dayStart : ℤ) :
    Option OuraPeriod :=
  match periods with
  | [] => none
  | _ :: _ =>
    (periods.foldl (ouraFallbackStep dayStart (dayStart + 86400)) (none, -1, 0)).1

/-- oura.fetch_day line 222: `[p for p in periods if p.get("type") != "nap"] or periods`. -/
def non_naps (periods : List OuraPeriod) : List OuraPeriod :=
  let nn := periods.filter fun p => decide (p.ptype ≠ some "nap")
  if nn.isEmpty then periods else nn

/-- oura.fetch_day line 223:
`_pick_sleep_ending_in_day(non_naps, day) or _pick_sleep_for_day(non_naps, day)`. -/
def oura_sleep_choice (periods : List OuraPeriod) (dayStart : ℤ) :
    Option OuraPeriod :=
  match pick_sleep_ending_in_day (non_naps periods) dayStart with
  | some p => some p
  | none => pick_sleep_for_day (non_naps periods) dayStart

/-- A period's `bedtime_end` falls inside the day window `[B, B + 24h)`. -/
def endsInWindow (p : OuraPeriod) (dayStart : ℤ) : Prop :=
  ∃ e, p.bedtimeEnd = some e ∧ dayStart ≤ e ∧ e < dayStart + 86400

/-- The parsed `bedtime_end`, defaulted (only used under `endsInWindow`). -/
def endD (p : OuraPeriod) : ℤ := p.bedtimeEnd.getD 0

/-- The containment-pass preference order of the spec: main/long over naps
first, then longer duration, then later end — lexicographic on
`(prefer, duration, end)`. -/
def tripLe (a b : ℕ × ℚ × ℤ) : Prop :=
  lexLe3 (fun t : ℕ × ℚ × ℤ => t.1) (fun t => t.2.1) (fun t => t.2.2) a b

/-- The spec scenario's session A: a main/long sleep 2025-01-09T23:30 →
2025-01-10T00:10 in seconds relative to 2025-01-10T00:00. -/
def scenarioMain : OuraPeriod :=
  ⟨some (-1800), some 600, some "long_sleep", some 2400⟩

/-- The spec scenario's session B: a nap 13:00 → 13:20 on 2025-01-10. -/
def scenarioNap : OuraPeriod :=
  ⟨some 46800, some 48000, some "nap", some 1200⟩

/-- One Polar sleep record with parsed timestamps (`_end_ts` coalesces
`sleep_end_time`/`end_time`/`bedtime_end`, similarly for start) and the raw
duration fields used as sort keys. -/
structure PolarItem where
  startTime : Option ℤ
  endTime : Option ℤ
  tst : Option ℤ
  ast : Option ℤ
  dur : Option ℤ
deriving DecidableEq

/-- Containment-pass sort key: `int(_coalesce(total_sleep_time, actual_sleep_time, duration, 0))`. -/
def polarContainKey (it : PolarItem) : ℤ :=
  ((it.tst.orElse fun _ => it.ast).orElse fun _ => it.dur).getD 0

/-- Fallback-pass secondary key: `int(_coalesce(total_sleep_time, duration, 0))`. -/
def polarDurKey (it : PolarItem) : ℤ :=
  (it.tst.orElse fun _ => it.dur).getD 0

/-- polar.overlap_sec: `-1.0` when either timestamp is unparseable, else the
clamped overlap with `[start_day, end_day)`. -/
def polarOverlap (it : PolarItem) (dayStart : ℤ) : ℚ :=
  match it.startTime, it.endTime with
  | some s, some e => overlap_seconds s e dayStart (dayStart + 86400)
  | _, _ => -1

/-- The containment test `(et := _end_ts(it)) and (start_day <= et < end_day)`. -/
def polarEndInWindow (dayStart : ℤ) (it : PolarItem) : Bool :=
  match it.endTime with
  | some e => decide (dayStart ≤ e ∧ e < dayStart + 86400)
  | none => false

/-- polar._pick_record_for_day: containment pass on `end` (sorted by duration,
last wins), then max-overlap fallback returning `{}` when the best overlap
is not positive. -/
def pick_record_for_day (items : List PolarItem) (dayStart : ℤ) :
    Option PolarItem :=
  match items with
  | [] => none
  | _ :: _ =>
    match items.filter (polarEndInWindow dayStart) with
    | c :: cs =>
        ((c :: cs).insertionSort (lexLe2 polarContainKey (fun _ => (0 : ℤ)))).getLast?
    | [] =>
        match (items.insertionSort
            (lexLe2 (fun it => polarOverlap it dayStart) polarDurKey)).getLast? with
        | none => none
        | some best =>
            if polarOverlap best dayStart ≤ 0 then none else some best

/-! ## Retry with backoff (health_sync/sources/garmin.py, `_retry_with_backoff`)

The while loop runs the operation while `attempt < max_attempts`; on failure it
increments `attempt`, classifies the error (`_is_rate_limited_error`), computes
`delay = min(max_delay, base_delay * 2 ** (attempt - 1))`, draws a jitter and
sleeps `delay * jitter`, logging `(attempt, rate_limited, sleep_sec)`.  After
the loop the last error, if any, is re-raised; with no stored error it returns
`None`.  The operation's outcomes and the jitter draws are oracles indexed by
call number / failure number; the recursion is driven by the remaining loop
iterations `max_attempts - attempt`, with `attempt` carried alongside. -/

/-- Outcome of `_retry_with_backoff`: the operation's value, a re-raised last
error, or Python's implicit `None` when the loop body never ran. -/
inductive RetryResult (ε α : Type) where
  | ok (v : α)
  | raised (e : ε)
  | retNone
deriving DecidableEq

/-- Observable trace of one `_retry_with_backoff` call: final outcome, the
sleeps performed, the number of operation calls, and the warning log records
`(attempt, rate_limited, sleep_sec)`. -/
structure RetryTrace (ε α : Type) where
  result : RetryResult ε α
  sleeps : List ℚ
  calls : ℕ
  log : List (ℕ × Bool × ℚ)
deriving DecidableEq

/-- Loop body of `_retry_with_backoff`.  `remaining` is the number of loop
iterations left (`max_attempts - attempt`), so the guard `attempt <
max_attempts` holds exactly when `remaining` is a successor. -/
def retryGo (fn : ℕ → Except ε α) (jit : ℕ → ℚ) (isRL : ε → Bool)
    (baseDelay maxDelay : ℚ) :
    (remaining attempt : ℕ) → Option ε → List ℚ → ℕ → List (ℕ × Bool × ℚ) →
    RetryTrace ε α
  | 0, _, lastErr, sleeps, calls, log =>
      match lastErr with
      | some e => ⟨.raised e, sleeps, calls, log⟩
      | none => ⟨.retNone, sleeps, calls, log⟩
  | remaining + 1, attempt, _, sleeps, calls, log =>
      match fn attempt with
      | .ok v => ⟨.ok v, sleeps, calls + 1, log⟩
      | .error e =>
          let attempt1 := attempt + 1
          let isrl := isRL e
          let delay := min maxDelay (baseDelay * 2 ^ (attempt1 - 1))
          let sleepS := delay * jit attempt1
          retryGo fn jit isRL baseDelay maxDelay remaining attempt1 (some e)
            (sleeps ++ [sleepS]) (calls + 1) (log ++ [(attempt1, isrl, sleepS)])

/-- garmin._retry_with_backoff with its defaults `max_attempts=6`,
`base_delay=1.0`, `max_delay=60.0` made explicit parameters. -/
def retry_with_backoff (fn : ℕ → Except ε α) (jit : ℕ → ℚ) (isRL : ε → Bool)
    (maxAttempts : ℕ) (baseDelay maxDelay : ℚ) : RetryTrace ε α :=
  retryGo fn jit isRL baseDelay maxDelay maxAttempts 0 none [] 0 []

/-! ## The driver loop (health_sync/cli.py, `_do_range`)

For each day and each selected provider module, `_do_range` calls
`fetch_day`; an exception is logged as a `fetch_failed` warning naming the
unit and the loop continues; returned rows are accumulated and finally handed
to `append_rows` in one call.  Days and providers are given as lists; a
fetch is an oracle from (day, provider) to rows or an error message. -/

/-- cli._do_range's accumulation loop: returns the accumulated rows and the
`fetch_failed` warnings `(source, day, error)` in emission order. -/
def do_range (fetch : ℤ → String → Except String (List α))
    (days : List ℤ) (sources : List String) :
    List α × List (String × ℤ × String) :=
  days.foldl
    (fun acc day =>
      sources.foldl
        (fun acc src =>
          match fetch day src with
          | .error e => (acc.1, acc.2 ++ [(src, day, e)])
          | .ok rs => (acc.1 ++ rs, acc.2))
        acc)
    ([], [])

/-! ## The reconciliation sink (health_sync/sheets.py, `append_rows`)

The store is the sheet's data range: the list of rows strictly below the
header row, so list position `j` is sheet row `j + 2` (matching
`enumerate(rows, start=2)` in `_read_existing_map`).  Cells are strings;
`append_rows` maps `None` to `""` before padding, and the algorithm only ever
inspects the three key columns, which hold strings.  The two batched writes
are applied in order; the final `sortRange` (ascending on column A, header
excluded) is modelled as a stable ascending sort on the date column, and
ISO-8601 date strings compare lexicographically. -/

/-- Length of the canonical header, `len(HEADER)` (= 23). -/
def headerLen : ℕ := UNIFIED_HEADER.length

/-- sheets._pad_row: pad with `""` to the header length, then truncate to it. -/
def padRow (row : List String) : List String :=
  (row ++ List.replicate (headerLen - row.length) "").take headerLen

/-- Python's `s or "daily"` on a string: `""` is falsy. -/
def orDaily (s : String) : String :=
  if s = "" then "daily" else s

/-- The f-string `f"{date}|{source}|{src_id}"`. -/
def mkKey (date source srcId : String) : String :=
  date ++ "|" ++ source ++ "|" ++ srcId

/-- sheets.append_rows line 115: `f"{row[0]}|{row[1]}|{row[-1] or 'daily'}"`
computed on a padded row. -/
def rowKey (row : List String) : String :=
  mkKey (row.headD "") (row.getD 1 "") (orDaily (row.getLast?.getD ""))

/-- The key `_read_existing_map` computes for a stored row: missing cells
default as in the slicing there (`r[0] if len(r) > 0 else ""`, etc., and
`src_id = r[len(HEADER)-1] if len(r) >= len(HEADER) else "daily"`). -/
def mapKey (r : List String) : String :=
  mkKey (r.headD "") (r.getD 1 "")
    (orDaily (if headerLen ≤ r.length then r.getD (headerLen - 1) "" else "daily"))

/-- The guard under which `_read_existing_map` indexes a stored row:
`if not r: continue` and `if date and source`. -/
def mapCond (r : List String) : Prop :=
  r ≠ [] ∧ r.headD "" ≠ "" ∧ r.getD 1 "" ≠ ""

instance (r : List String) : Decidable (mapCond r) := by
  unfold mapCond; infer_instance

/-- Dict update `mapping[key] = idx`: later writes win. -/
def mapInsert (m : String → Option ℕ) (k : String) (i : ℕ) : String → Option ℕ :=
  fun q => if q = k then some i else m q

/-- The enumeration loop of `_read_existing_map`, starting at sheet row `i`. -/
def readMapGo (i : ℕ) : List (List String) → (String → Option ℕ) → String → Option ℕ
  | [], m => m
  | r :: t, m =>
      readMapGo (i + 1) t (if mapCond r then mapInsert m (mapKey r) i else m)

/-- The read range `A2:{last_col}100000` of `_read_existing_map`: sheet rows
2 through 100000 inclusive, i.e. at most 99999 data rows are scanned.  The
appends (`A:A`) and the final `sortRange` (all rows below the header) are not
capped, so the store itself can grow past this range. -/
def READ_CAP : ℕ := 99999

/-- sheets._read_existing_map: composite key → sheet row index (2-based).
The `values.get` range stops at sheet row 100000, so only the first
`READ_CAP` data rows are indexed. -/
def read_existing_map (store : List (List String)) : String → Option ℕ :=
  readMapGo 2 (store.take READ_CAP) fun _ => none

/-- Column A of a stored row, the date key of the final `sortRange`. -/
def dateOf (r : List String) : String := r.headD ""

/-- Ascending comparison on the date column. -/
def dateLe (a b : List String) : Prop := dateOf a ≤ dateOf b

instance : DecidableRel dateLe := fun a b => by
  unfold dateLe; infer_instance

instance : IsTotal (List String) dateLe :=
  ⟨fun a b => le_total (dateOf a) (dateOf b)⟩

instance : IsTrans (List String) dateLe :=
  ⟨fun _ _ _ hab hbc => le_trans hab hbc⟩

instance : IsRefl (List String) dateLe :=
  ⟨fun _ => le_refl _⟩

/-- One scheduled overwrite `{"range": f"…A{idx}:…{idx}", "values": [row]}`
applied to the data range: sheet row `idx` is list position `idx - 2`. -/
def applyUpdate (store : List (List String)) (u : ℕ × List String) :
    List (List String) :=
  store.set (u.1 - 2) u.2

/-- The padded row `append_rows` derives from one incoming row. -/
def padded (r : List (Option String)) : List String :=
  padRow (r.map fun v => v.getD "")

/-- The per-row classification loop of `append_rows`: accumulate
`(to_update, to_append)` in input order. -/
def classifyRows (existing : String → Option ℕ) (rows : List (List (Option String))) :
    List (ℕ × List String) × List (List String) :=
  rows.foldl
    (fun acc r =>
      match existing (rowKey (padded r)) with
      | some idx => (acc.1 ++ [(idx, padded r)], acc.2)
      | none => (acc.1, acc.2 ++ [padded r]))
    ([], [])

/-- sheets.append_rows on a store state: early return on an empty batch, else
read the key index, classify each padded row as overwrite or append, apply the
batched overwrites then the batched append, and finally sort the data range by
date ascending. -/
def append_rows (rows : List (List (Option String))) (store : List (List String)) :
    List (List String) :=
  if rows.isEmpty then store
  else
    let cls := classifyRows (read_existing_map store) rows
    ((cls.1.foldl applyUpdate store) ++ cls.2).insertionSort dateLe

/-- The multiset of composite keys of the store rows that
`_read_existing_map` indexes ("live" rows of the uniqueness invariant). -/
def liveKeys (store : List (List String)) : List String :=
  (store.filter fun r => decide (mapCond r)).map mapKey

/-- No `'|'` character occurs in the string (ISO dates, provider names and
record ids are bar-free, which makes the `|`-joined composite key injective). -/
def noBar (s : String) : Prop := ¬ '|' ∈ s.data

instance (s : String) : Decidable (noBar s) := by
  unfold noBar; infer_instance

/-- A canonical incoming row: nonempty bar-free date and source, bar-free
source_record_id — the shape every `UnifiedRow.as_row()` produces. -/
def canonicalRow (r : List (Option String)) : Prop :=
  dateOf (padded r) ≠ "" ∧ noBar (dateOf (padded r)) ∧
  (padded r).getD 1 "" ≠ "" ∧ noBar ((padded r).getD 1 "") ∧
  noBar ((padded r).getLast?.getD "")

/-- A concrete canonical daily row (date and source only; the padded row's
source_record_id is empty, so its key defaults to "daily"). -/
def cexRow : List (Option String) := [some "2025-01-10", some "oura"]

/-- A stored filler row carrying a different composite key and an earlier
date than `cexRow`; `READ_CAP` copies of it fill the indexed read range. -/
def fillerRow : List String := padded [some "2025-01-09", some "garmin"]

/-- A store whose only row bearing `cexRow`'s composite key sits at data
position `READ_CAP` (sheet row 100001), one row past the capped read range
of `_read_existing_map`. -/
def capStore : List (List String) :=
  List.replicate READ_CAP fillerRow ++ [padded cexRow]

/-- sheets.append_rows entered through the module (cli.py `from .sheets import
append_rows`): the module-level `HEADER = UnifiedRow.headers()` runs first. -/
def append_rows_via_module (rows : List (List (Option String)))
    (store : List (List String)) : Except String (List (List String)) :=
  match sheetsModuleInit with
  | .error e => .error e
  | .ok _ => .ok (append_rows rows store)

/-! ## Proof-support definitions (loop characterizations) -/

/-- The list position (0-based within the data range) of the last row that
`_read_existing_map` would index under the given key; the dict write
`mapping[key] = idx` makes the last occurrence win. -/
def lastPos (k : String) : List (List String) → Option ℕ
  | [] => none
  | r :: t =>
      match lastPos k t with
      | some j => some (j + 1)
      | none => if mapCond r ∧ mapKey r = k then some 0 else none

/-- The value of the last scheduled overwrite targeting data position `j`
(sheet row `j + 2`): `batchUpdate` applies its entries in order, so for one
position the last entry wins. -/
def lastWriteAt (j : ℕ) : List (ℕ × List String) → Option (List String)
  | [] => none
  | u :: t =>
      match lastWriteAt j t with
      | some v => some v
      | none => if u.1 - 2 = j then some u.2 else none

/-- The `rowTag` of a stored row: its key when the scan indexes it. -/
def rowTag (r : List String) : Option String :=
  if mapCond r then some (mapKey r) else none

/-- Projection of a retry log record that forgets the rate-limited flag. -/
def dropRL (e : ℕ × Bool × ℚ) : ℕ × ℚ := (e.1, e.2.2)

/-! ## Shared helper lemmas -/

/-- In a list sorted by a reflexive relation, the last element dominates
every member. -/
theorem sorted_getLast_ge {α : Type} {r : α → α → Prop} [IsRefl α r] :
    ∀ {l : List α} {b : α}, l.Sorted r → l.getLast? = some b → ∀ x ∈ l, r x b := by
  intro l
  induction l with
  | nil => intro b _ h; simp at h
  | cons a t ih =>
    intro b hs hb x hx
    cases t with
    | nil =>
      simp at hb hx
      subst hb; subst hx
      exact refl_of r x
    | cons c t2 =>
      have hb' : (c :: t2).getLast? = some b := by
        simpa [List.getLast?] using hb
      rcases List.mem_cons.mp hx with hx | hx
      · subst hx
        have hbmem : b ∈ c :: t2 := by
          rcases List.mem_getLast?_eq_getLast (Option.mem_def.mpr hb') with ⟨hne, hbe⟩
          rw [hbe]
          exact List.getLast_mem hne
        exact List.rel_of_sorted_cons hs b hbmem
      · exact ih hs.of_cons hb' x hx

/-- A defaulted index inside the range is a member. -/
theorem getD_mem_of_lt {α : Type} (l : List α) (d : α) {j : ℕ} (h : j < l.length) :
    l.getD j d ∈ l := by
  rw [List.getD_eq_getElem l d h]
  exact List.getElem_mem h

/-- `readMapGo` looks up a key as: the last indexed occurrence in the scanned
suffix, shifted by the starting sheet row, else whatever the accumulated map
already said. -/
theorem readMapGo_eq_lastPos :
    ∀ (l : List (List String)) (i : ℕ) (m : String → Option ℕ) (k : String),
      readMapGo i l m k =
        match lastPos k l with
        | some j => some (i + j)
        | none => m k := by
  intro l
  induction l with
  | nil => intro i m k; simp [readMapGo, lastPos]
  | cons r t ih =>
    intro i m k
    rw [readMapGo, ih]
    cases hl : lastPos k t with
    | some j =>
      simp only [lastPos, hl]
      have : i + (j + 1) = i + 1 + j := by omega
      rw [this]
    | none =>
      simp only [lastPos, hl]
      by_cases hc : mapCond r
      · rw [if_pos hc]
        by_cases hk : mapKey r = k
        · rw [if_pos ⟨hc, hk⟩]
          simp [mapInsert, hk]
        · rw [if_neg (fun h => hk h.2)]
          simp only [mapInsert]
          rw [if_neg (fun h => hk (h.symm))]
      · rw [if_neg hc, if_neg (fun h => hc h.1)]

/-- `lastPos` misses exactly when no row of the list is indexed under the key. -/
theorem lastPos_none_forall (k : String) :
    ∀ (l : List (List String)),
      lastPos k l = none ↔ ∀ r ∈ l, ¬(mapCond r ∧ mapKey r = k) := by
  intro l
  induction l with
  | nil => simp [lastPos]
  | cons r t ih =>
    rw [lastPos]
    cases hl : lastPos k t with
    | some j =>
      simp only []
      constructor
      · intro h; exact absurd h (by simp)
      · intro h
        exact absurd (ih.mpr fun x hx => h x (List.mem_cons_of_mem r hx)) (by simp [hl])
    | none =>
      simp only []
      by_cases hc : mapCond r ∧ mapKey r = k
      · rw [if_pos hc]
        constructor
        · intro h; exact absurd h (by simp)
        · intro h; exact absurd hc (h r (List.mem_cons_self r t))
      · rw [if_neg hc]
        constructor
        · intro _ x hx
          rcases List.mem_cons.mp hx with hx | hx
          · subst hx; exact hc
          · exact (ih.mp hl) x hx
        · intro _; rfl

/-- What a `lastPos` hit means: the row there is indexed under the key, and
no later row within range is. -/
theorem lastPos_spec (k : String) :
    ∀ (l : List (List String)) (j : ℕ),
      lastPos k l = some j →
      j < l.length ∧ mapCond (l.getD j []) ∧ mapKey (l.getD j []) = k ∧
      ∀ j', j < j' → j' < l.length →
        ¬(mapCond (l.getD j' []) ∧ mapKey (l.getD j' []) = k) := by
  intro l
  induction l with
  | nil => intro j h; simp [lastPos] at h
  | cons r t ih =>
    intro j h
    rw [lastPos] at h
    cases hl : lastPos k t with
    | some j0 =>
      rw [hl] at h
      have hj : j = j0 + 1 := by simpa using h.symm
      subst hj
      obtain ⟨h1, h2, h3, h4⟩ := ih j0 hl
      refine ⟨by simpa using h1, by simpa using h2, by simpa using h3, ?_⟩
      intro j' hgt hlt
      cases j' with
      | zero => omega
      | succ j2 =>
        have := h4 j2 (by omega) (by simpa using hlt)
        simpa using this
    | none =>
      rw [hl] at h
      by_cases hc : mapCond r ∧ mapKey r = k
      · rw [if_pos hc] at h
        have hj : j = 0 := by simpa using h.symm
        subst hj
        refine ⟨by simp, by simpa using hc.1, by simpa using hc.2, ?_⟩
        intro j' hgt hlt
        cases j' with
        | zero => omega
        | succ j2 =>
          intro hcontra
          have hck : mapCond (t.getD j2 []) ∧ mapKey (t.getD j2 []) = k := by
            simpa using hcontra
          have hlt2 : j2 < t.length := by simpa using hlt
          have hmem : t.getD j2 [] ∈ t := getD_mem_of_lt t [] hlt2
          exact (lastPos_none_forall k t).mp hl _ hmem hck
      · rw [if_neg hc] at h
        exact absurd h (by simp)

/-- Overwrites never change the number of rows. -/
theorem foldl_applyUpdate_length :
    ∀ (upds : List (ℕ × List String)) (S : List (List String)),
      (upds.foldl applyUpdate S).length = S.length := by
  intro upds
  induction upds with
  | nil => intro S; rfl
  | cons u t ih =>
    intro S
    rw [List.foldl_cons, ih]
    simp [applyUpdate]

/-- After applying all overwrites in order, an in-range position holds the
value of the last overwrite targeting it, else its original row. -/
theorem foldl_applyUpdate_getD :
    ∀ (upds : List (ℕ × List String)) (S : List (List String)) (j : ℕ),
      j < S.length →
      (upds.foldl applyUpdate S).getD j [] =
        match lastWriteAt j upds with
        | some v => v
        | none => S.getD j [] := by
  intro upds
  induction upds with
  | nil => intro S j hj; simp [lastWriteAt]
  | cons u t ih =>
    intro S j hj
    rw [List.foldl_cons]
    have hlen : j < (applyUpdate S u).length := by simpa [applyUpdate] using hj
    rw [ih _ j hlen, lastWriteAt]
    cases hl : lastWriteAt j t with
    | some v => simp
    | none =>
      simp only []
      by_cases he : u.1 - 2 = j
      · rw [if_pos he]
        subst he
        simp [applyUpdate, List.getD_eq_getElem?_getD, List.getElem?_set, hj]
      · rw [if_neg he]
        simp [applyUpdate, List.getD_eq_getElem?_getD, List.getElem?_set, he]

/-- Unique splitting at a bar when both left parts are bar-free. -/
theorem bar_split_inj :
    ∀ (a d r1 r2 : List Char), '|' ∉ a → '|' ∉ d →
      a ++ '|' :: r1 = d ++ '|' :: r2 → a = d ∧ r1 = r2 := by
  intro a
  induction a with
  | nil =>
    intro d r1 r2 _ hd h
    cases d with
    | nil => simpa using h
    | cons x xs =>
      simp only [List.nil_append, List.cons_append, List.cons.injEq] at h
      obtain ⟨h1, _⟩ := h
      subst h1
      simp at hd
  | cons c a ih =>
    intro d r1 r2 ha hd h
    cases d with
    | nil =>
      simp only [List.nil_append, List.cons_append, List.cons.injEq] at h
      obtain ⟨h1, _⟩ := h
      subst h1
      simp at ha
    | cons x xs =>
      simp only [List.cons_append, List.cons.injEq] at h
      obtain ⟨h1, h2⟩ := h
      have ha' : '|' ∉ a := fun hm => ha (List.mem_cons_of_mem c hm)
      have hd' : '|' ∉ xs := fun hm => hd (List.mem_cons_of_mem x hm)
      obtain ⟨he, hr⟩ := ih xs r1 r2 ha' hd' h2
      exact ⟨by rw [h1, he], hr⟩

/-- The composite key `f"{date}|{source}|{src_id}"` is injective against a
canonical key whose three fields are bar-free (ISO dates, provider names and
record ids contain no bar): whatever row produced the equal string, its three
slices agree with the canonical fields. -/
theorem mkKey_inj_canonical (a b c d s i : String)
    (h : mkKey a b c = mkKey d s i)
    (hd : noBar d) (hs : noBar s) (hi : noBar i) :
    a = d ∧ b = s ∧ c = i := by
  have hdata : a.data ++ '|' :: (b.data ++ '|' :: c.data) =
      d.data ++ '|' :: (s.data ++ '|' :: i.data) := by
    have h1 := congrArg String.data h
    simpa [mkKey, String.data_append] using h1
  have hcount : List.count '|' (a.data ++ '|' :: (b.data ++ '|' :: c.data)) =
      List.count '|' (d.data ++ '|' :: (s.data ++ '|' :: i.data)) := by
    rw [hdata]
  have hzero : List.count '|' a.data = 0 ∧ List.count '|' b.data = 0 ∧
      List.count '|' c.data = 0 := by
    have hd0 : List.count '|' d.data = 0 := List.count_eq_zero.mpr hd
    have hs0 : List.count '|' s.data = 0 := List.count_eq_zero.mpr hs
    have hi0 : List.count '|' i.data = 0 := List.count_eq_zero.mpr hi
    simp [List.count_append, List.count_cons, hd0, hs0, hi0] at hcount
    omega
  have ha : '|' ∉ a.data := List.count_eq_zero.mp hzero.1
  have hb : '|' ∉ b.data := List.count_eq_zero.mp hzero.2.1
  obtain ⟨h1, h2⟩ := bar_split_inj a.data d.data _ _ ha hd hdata
  obtain ⟨h3, h4⟩ := bar_split_inj b.data s.data _ _ hb hs h2
  exact ⟨String.ext h1, String.ext h3, String.ext h4⟩

/-- Padded rows have exactly the canonical column count. -/
theorem padded_length (r : List (Option String)) : (padded r).length = headerLen := by
  simp [padded, padRow]
  omega

/-- A padded row is never the empty row. -/
theorem padded_ne_nil (r : List (Option String)) : padded r ≠ [] := by
  intro h
  have := padded_length r
  rw [h] at this
  simp [headerLen, UNIFIED_HEADER] at this

/-- On full-width rows the incoming-row key and the scan key coincide:
`row[-1]` is `row[len(HEADER)-1]`. -/
theorem rowKey_eq_mapKey (row : List String) (h : row.length = headerLen) :
    rowKey row = mapKey row := by
  have h23 : headerLen ≤ row.length := le_of_eq h.symm
  have hlast : row.getLast?.getD "" = row.getD (headerLen - 1) "" := by
    rw [List.getLast?_eq_getElem?, List.getD_eq_getElem?_getD, h]
  simp only [rowKey, mapKey, if_pos h23, hlast]

/-- A canonical incoming row is indexed by the scan. -/
theorem canonical_mapCond (r : List (Option String)) (h : canonicalRow r) :
    mapCond (padded r) :=
  ⟨padded_ne_nil r, h.1, h.2.2.1⟩

/-- `s or "daily"` keeps bar-freeness. -/
theorem noBar_orDaily (s : String) (h : noBar s) : noBar (orDaily s) := by
  unfold orDaily
  split
  · unfold noBar
    decide
  · exact h

/-- Any stored row whose scan key equals a canonical incoming row's key has
that row's date in column A (and is itself indexed by the scan): the
`|`-joined key determines the bar-free canonical fields. -/
theorem mapKey_match_canonical (x : List String) (r : List (Option String))
    (hc : canonicalRow r) (hk : mapKey x = rowKey (padded r)) :
    dateOf x = dateOf (padded r) ∧ mapCond x := by
  obtain ⟨hd, hdb, hs, hsb, hib⟩ := hc
  have h3 := mkKey_inj_canonical (dateOf x) (x.getD 1 "")
    (orDaily (if headerLen ≤ x.length then x.getD (headerLen - 1) "" else "daily"))
    (dateOf (padded r)) ((padded r).getD 1 "")
    (orDaily ((padded r).getLast?.getD ""))
    (by simpa [mapKey, rowKey, dateOf] using hk)
    hdb hsb (noBar_orDaily _ hib)
  have hxd : dateOf x = dateOf (padded r) := h3.1
  refine ⟨hxd, ?_, ?_, ?_⟩
  · intro hnil
    rw [hnil] at hxd
    exact hd (by simpa [dateOf] using hxd.symm)
  · rw [show x.headD "" = dateOf x from rfl, hxd]
    exact hd
  · rw [h3.2.1]
    exact hs

/-- `liveKeys` as a single `filterMap`. -/
theorem liveKeys_eq_filterMap (S : List (List String)) :
    liveKeys S = S.filterMap rowTag := by
  induction S with
  | nil => rfl
  | cons a t ih =>
    by_cases hc : mapCond a
    · simp [liveKeys, rowTag, List.filter_cons, List.filterMap_cons, hc] at ih ⊢
      exact ih
    · simp [liveKeys, rowTag, List.filter_cons, List.filterMap_cons, hc] at ih ⊢
      exact ih

/-- Two equal-length stores with pointwise-equal row tags have the same
live keys. -/
theorem filterMap_rowTag_congr :
    ∀ (S S' : List (List String)), S.length = S'.length →
      (∀ j, j < S.length → rowTag (S'.getD j []) = rowTag (S.getD j [])) →
      S'.filterMap rowTag = S.filterMap rowTag := by
  intro S
  induction S with
  | nil =>
    intro S' hlen _
    cases S' with
    | nil => rfl
    | cons b t' => simp at hlen
  | cons a t ih =>
    intro S' hlen hpt
    cases S' with
    | nil => simp at hlen
    | cons b t' =>
      have h0 : rowTag b = rowTag a := by simpa using hpt 0 (by simp)
      have hrest : t'.filterMap rowTag = t.filterMap rowTag := by
        refine ih t' (by simpa using hlen) ?_
        intro j hj
        simpa using hpt (j + 1) (by simpa using Nat.succ_lt_succ hj)
      rw [List.filterMap_cons, List.filterMap_cons, h0, hrest]

/-- A hit in `lastWriteAt` comes from an actual scheduled overwrite. -/
theorem lastWriteAt_mem :
    ∀ (upds : List (ℕ × List String)) (j : ℕ) (v : List String),
      lastWriteAt j upds = some v → ∃ i, (i, v) ∈ upds ∧ i - 2 = j := by
  intro upds
  induction upds with
  | nil => intro j v h; simp [lastWriteAt] at h
  | cons u t ih =>
    intro j v h
    rw [lastWriteAt] at h
    cases hl : lastWriteAt j t with
    | some w =>
      rw [hl] at h
      obtain ⟨i, hmem, hi⟩ := ih j w hl
      have hvw : v = w := by simpa using h.symm
      subst hvw
      exact ⟨i, List.mem_cons_of_mem u hmem, hi⟩
    | none =>
      rw [hl] at h
      by_cases he : u.1 - 2 = j
      · rw [if_pos he] at h
        have hv : v = u.2 := by simpa using h.symm
        subst hv
        exact ⟨u.1, by simp, he⟩
      · rw [if_neg he] at h
        exact absurd h (by simp)

/-- The classification loop in closed form: the scheduled overwrites are the
key-hit rows paired with their sheet positions, the scheduled appends the
key-miss rows, both in input order. -/
theorem classifyRows_eq (existing : String → Option ℕ) :
    ∀ (rows : List (List (Option String)))
      (acc : List (ℕ × List String) × List (List String)),
      rows.foldl
        (fun acc r =>
          match existing (rowKey (padded r)) with
          | some idx => (acc.1 ++ [(idx, padded r)], acc.2)
          | none => (acc.1, acc.2 ++ [padded r]))
        acc =
      (acc.1 ++ rows.filterMap (fun r =>
          (existing (rowKey (padded r))).map fun idx => (idx, padded r)),
       acc.2 ++ rows.filterMap (fun r =>
          match existing (rowKey (padded r)) with
          | some _ => none
          | none => some (padded r))) := by
  intro rows
  induction rows with
  | nil => intro acc; simp
  | cons r t ih =>
    intro acc
    rw [List.foldl_cons]
    cases hr : existing (rowKey (padded r)) with
    | some idx =>
      simp only [hr, ih, List.filterMap_cons, Option.map_some']
      simp [List.append_assoc]
    | none =>
      simp only [hr, ih, List.filterMap_cons, Option.map_none']
      simp [List.append_assoc]

/-- Membership in the live keys of a store. -/
theorem mem_liveKeys (S : List (List String)) (k : String) :
    k ∈ liveKeys S ↔ ∃ x ∈ S, mapCond x ∧ mapKey x = k := by
  rw [liveKeys_eq_filterMap, List.mem_filterMap]
  constructor
  · rintro ⟨x, hx, htag⟩
    rw [rowTag] at htag
    by_cases hc : mapCond x
    · rw [if_pos hc] at htag
      exact ⟨x, hx, hc, by simpa using htag⟩
    · rw [if_neg hc] at htag
      exact absurd htag (by simp)
  · rintro ⟨x, hx, hc, hk⟩
    exact ⟨x, hx, by rw [rowTag, if_pos hc, hk]⟩

/-- A `filterMap` that on each element yields either nothing or that
element's `g`-image is a sublist of the `g`-map. -/
theorem filterMap_sublist_map {α β : Type} (f : α → Option β) (g : α → β)
    (h : ∀ a, f a = none ∨ f a = some (g a)) :
    ∀ l : List α, (l.filterMap f).Sublist (l.map g) := by
  intro l
  induction l with
  | nil => simp
  | cons a t ih =>
    rw [List.filterMap_cons, List.map_cons]
    rcases h a with ha | ha
    · rw [ha]
      exact ih.cons (g a)
    · rw [ha]
      exact ih.cons₂ (g a)

/-- Once oura's fallback loop has a best candidate, it keeps one. -/
theorem ouraFallbackStep_stays_some (d w : ℤ) :
    ∀ (l : List OuraPeriod) (acc : Option OuraPeriod × ℚ × ℕ) (q : OuraPeriod),
      acc.1 = some q →
      ∃ q', (l.foldl (ouraFallbackStep d w) acc).1 = some q' := by
  intro l
  induction l with
  | nil => intro acc q h; exact ⟨q, h⟩
  | cons p t ih =>
    intro acc q h
    rw [List.foldl_cons]
    cases hs : p.bedtimeStart with
    | none => exact ih _ q (by simp [ouraFallbackStep, hs, h])
    | some s =>
      cases he : p.bedtimeEnd with
      | none => exact ih _ q (by simp [ouraFallbackStep, hs, he, h])
      | some e =>
        by_cases hlt : pairLt (acc.2.1, acc.2.2) (overlap_seconds s e d w, preferN p)
        · exact ih _ p (by simp [ouraFallbackStep, hs, he, hlt])
        · exact ih _ q (by simp [ouraFallbackStep, hs, he, hlt, h])

/-- Starting from the initial `(None, (-1.0, 0))` accumulator, oura's
fallback loop ends with no choice exactly when every period has an
unparseable start or end. -/
theorem ouraFallback_none_iff (d w : ℤ) :
    ∀ (l : List OuraPeriod) (acc : Option OuraPeriod × ℚ × ℕ),
      acc.1 = none → acc.2.1 = -1 →
      ((l.foldl (ouraFallbackStep d w) acc).1 = none ↔
        ∀ p ∈ l, p.bedtimeStart = none ∨ p.bedtimeEnd = none) := by
  intro l
  induction l with
  | nil =>
    intro acc h1 _
    simpa using h1
  | cons p t ih =>
    intro acc h1 h2
    rw [List.foldl_cons]
    cases hs : p.bedtimeStart with
    | none =>
      rw [ih _ (by simp [ouraFallbackStep, hs, h1]) (by simp [ouraFallbackStep, hs, h2])]
      simp [hs]
    | some s =>
      cases he : p.bedtimeEnd with
      | none =>
        rw [ih _ (by simp [ouraFallbackStep, hs, he, h1])
          (by simp [ouraFallbackStep, hs, he, h2])]
        simp [he]
      | some e =>
        have hkey : pairLt (acc.2.1, acc.2.2) (overlap_seconds s e d w, preferN p) := by
          left
          rw [h2]
          have : (0 : ℚ) ≤ overlap_seconds s e d w := le_max_left 0 _
          linarith
        have hstep : (ouraFallbackStep d w acc p).1 = some p := by
          simp [ouraFallbackStep, hs, he, hkey]
        obtain ⟨q', hq'⟩ := ouraFallbackStep_stays_some d w t (ouraFallbackStep d w acc p) p hstep
        rw [hq']
        constructor
        · intro h; exact absurd h (by simp)
        · intro h
          have := h p (List.mem_cons_self p t)
          rw [hs, he] at this
          rcases this with h' | h' <;> exact absurd h' (by simp)

/-- The retry loop appends one sleep per failure, following the backoff
formula from the attempt number, and makes at most one operation call per
remaining loop iteration. -/
theorem retryGo_sleeps {ε α : Type} (fn : ℕ → Except ε α) (jit : ℕ → ℚ)
    (isRL : ε → Bool) (baseDelay maxDelay : ℚ) :
    ∀ (remaining attempt : ℕ) (lastErr : Option ε) (sleeps : List ℚ) (calls : ℕ)
      (log : List (ℕ × Bool × ℚ)),
      ∃ m, m ≤ remaining ∧
        (retryGo fn jit isRL baseDelay maxDelay remaining attempt lastErr sleeps
          calls log).sleeps =
          sleeps ++ (List.range m).map
            (fun k => min maxDelay (baseDelay * 2 ^ (attempt + k)) * jit (attempt + k + 1)) ∧
        (retryGo fn jit isRL baseDelay maxDelay remaining attempt lastErr sleeps
          calls log).calls ≤ calls + remaining := by
  intro remaining
  induction remaining with
  | zero =>
    intro attempt lastErr sleeps calls log
    refine ⟨0, le_refl 0, ?_, ?_⟩ <;> cases lastErr <;> simp [retryGo]
  | succ r ih =>
    intro attempt lastErr sleeps calls log
    cases hfn : fn attempt with
    | ok v =>
      refine ⟨0, Nat.zero_le _, ?_, ?_⟩
      · simp [retryGo, hfn]
      · simp only [retryGo, hfn]
        omega
    | error e =>
      obtain ⟨m, hm, hsl, hc⟩ := ih (attempt + 1) (some e)
        (sleeps ++ [min maxDelay (baseDelay * 2 ^ (attempt + 1 - 1)) * jit (attempt + 1)])
        (calls + 1)
        (log ++ [(attempt + 1, isRL e, min maxDelay (baseDelay * 2 ^ (attempt + 1 - 1)) * jit (attempt + 1))])
      refine ⟨m + 1, by omega, ?_, ?_⟩
      · show (retryGo fn jit isRL baseDelay maxDelay (r+1) attempt lastErr sleeps calls log).sleeps = _
        simp only [retryGo, hfn]
        rw [hsl]
        rw [List.append_assoc]
        congr 1
        rw [List.range_succ_eq_map, List.map_cons, List.map_map]
        simp only [Nat.add_zero, Nat.add_succ_sub_one, List.singleton_append, List.cons.injEq]
        constructor
        · trivial
        · apply List.map_congr_left
          intro k _
          have hk : attempt + 1 + k = attempt + (k + 1) := by omega
          simp only [Function.comp_apply, hk]
      · show (retryGo fn jit isRL baseDelay maxDelay (r+1) attempt lastErr sleeps calls log).calls ≤ _
        simp only [retryGo, hfn]
        refine le_trans hc ?_
        omega

/-- The rate-limit classifier affects only the `rate_limited` flags in the
log, never the outcome, the sleeps, or the call count. -/
theorem retryGo_isRL_indep {ε α : Type} (fn : ℕ → Except ε α) (jit : ℕ → ℚ)
    (isRL isRL' : ε → Bool) (baseDelay maxDelay : ℚ) :
    ∀ (remaining attempt : ℕ) (lastErr : Option ε) (sleeps : List ℚ) (calls : ℕ)
      (log log' : List (ℕ × Bool × ℚ)),
      log.map dropRL = log'.map dropRL →
      (retryGo fn jit isRL baseDelay maxDelay remaining attempt lastErr sleeps
        calls log).result =
        (retryGo fn jit isRL' baseDelay maxDelay remaining attempt lastErr sleeps
          calls log').result ∧
      (retryGo fn jit isRL baseDelay maxDelay remaining attempt lastErr sleeps
        calls log).sleeps =
        (retryGo fn jit isRL' baseDelay maxDelay remaining attempt lastErr sleeps
          calls log').sleeps ∧
      (retryGo fn jit isRL baseDelay maxDelay remaining attempt lastErr sleeps
        calls log).calls =
        (retryGo fn jit isRL' baseDelay maxDelay remaining attempt lastErr sleeps
          calls log').calls ∧
      (retryGo fn jit isRL baseDelay maxDelay remaining attempt lastErr sleeps
        calls log).log.map dropRL =
        (retryGo fn jit isRL' baseDelay maxDelay remaining attempt lastErr sleeps
          calls log').log.map dropRL := by
  intro remaining
  induction remaining with
  | zero =>
    intro attempt lastErr sleeps calls log log' hlog
    cases lastErr <;> simp [retryGo, hlog]
  | succ r ih =>
    intro attempt lastErr sleeps calls log log' hlog
    cases hfn : fn attempt with
    | ok v => simp [retryGo, hfn, hlog]
    | error e =>
      have hlog2 :
          (log ++ [(attempt + 1, isRL e,
            min maxDelay (baseDelay * 2 ^ (attempt + 1 - 1)) * jit (attempt + 1))]).map dropRL =
          (log' ++ [(attempt + 1, isRL' e,
            min maxDelay (baseDelay * 2 ^ (attempt + 1 - 1)) * jit (attempt + 1))]).map dropRL := by
        simp [hlog, dropRL]
      have := ih (attempt + 1) (some e)
        (sleeps ++ [min maxDelay (baseDelay * 2 ^ (attempt + 1 - 1)) * jit (attempt + 1)])
        (calls + 1) _ _ hlog2
      simpa [retryGo, hfn] using this

/-- If the operation fails on every attempt up to the exit of the loop, the
loop runs to exhaustion and re-raises the error of the final attempt. -/
theorem retryGo_all_fail {ε α : Type} (fn : ℕ → Except ε α) (jit : ℕ → ℚ)
    (isRL : ε → Bool) (baseDelay maxDelay : ℚ) :
    ∀ (remaining attempt : ℕ) (lastErr : Option ε) (sleeps : List ℚ) (calls : ℕ)
      (log : List (ℕ × Bool × ℚ)) (e : ε),
      1 ≤ remaining →
      (∀ i, attempt ≤ i → i < attempt + remaining → ∃ err, fn i = .error err) →
      fn (attempt + remaining - 1) = .error e →
      (retryGo fn jit isRL baseDelay maxDelay remaining attempt lastErr sleeps
        calls log).result = .raised e ∧
      (retryGo fn jit isRL baseDelay maxDelay remaining attempt lastErr sleeps
        calls log).calls = calls + remaining := by
  intro remaining
  induction remaining with
  | zero => intro _ _ _ _ _ _ h; omega
  | succ r ih =>
    intro attempt lastErr sleeps calls log e _ hall hlast
    cases r with
    | zero =>
      have hfa : fn attempt = .error e := by simpa using hlast
      rw [retryGo, hfa]
      simp [retryGo]
    | succ r2 =>
      obtain ⟨err, herr⟩ := hall attempt (le_refl _) (by omega)
      rw [retryGo, herr]
      have := ih (attempt + 1) (some err)
        (sleeps ++ [min maxDelay (baseDelay * 2 ^ (attempt + 1 - 1)) * jit (attempt + 1)])
        (calls + 1)
        (log ++ [(attempt + 1, isRL err,
          min maxDelay (baseDelay * 2 ^ (attempt + 1 - 1)) * jit (attempt + 1))])
        e (by omega)
        (fun i h1 h2 => hall i (by omega) (by omega))
        (by
          have : attempt + 1 + (r2 + 1) - 1 = attempt + (r2 + 1 + 1) - 1 := by omega
          rw [this]; exact hlast)
      exact ⟨this.1, by rw [this.2]; omega⟩

/-- If attempt `k` succeeds after `k` failures, the loop returns that value
after exactly `k + 1` operation calls. -/
theorem retryGo_first_success {ε α : Type} (fn : ℕ → Except ε α) (jit : ℕ → ℚ)
    (isRL : ε → Bool) (baseDelay maxDelay : ℚ) :
    ∀ (remaining attempt : ℕ) (lastErr : Option ε) (sleeps : List ℚ) (calls : ℕ)
      (log : List (ℕ × Bool × ℚ)) (k : ℕ) (v : α),
      attempt ≤ k → k < attempt + remaining →
      fn k = .ok v →
      (∀ i, attempt ≤ i → i < k → ∃ err, fn i = .error err) →
      (retryGo fn jit isRL baseDelay maxDelay remaining attempt lastErr sleeps
        calls log).result = .ok v ∧
      (retryGo fn jit isRL baseDelay maxDelay remaining attempt lastErr sleeps
        calls log).calls = calls + (k - attempt) + 1 := by
  intro remaining
  induction remaining with
  | zero => intro _ _ _ _ _ k _ h1 h2; omega
  | succ r ih =>
    intro attempt lastErr sleeps calls log k v hak hkr hok hfail
    rcases Nat.eq_or_lt_of_le hak with heq | hlt
    · subst heq
      rw [retryGo, hok]
      simp
    · obtain ⟨err, herr⟩ := hfail attempt (le_refl _) hlt
      rw [retryGo, herr]
      have := ih (attempt + 1) (some err)
        (sleeps ++ [min maxDelay (baseDelay * 2 ^ (attempt + 1 - 1)) * jit (attempt + 1)])
        (calls + 1)
        (log ++ [(attempt + 1, isRL err,
          min maxDelay (baseDelay * 2 ^ (attempt + 1 - 1)) * jit (attempt + 1))])
        k v (by omega) (by omega) hok
        (fun i h1 h2 => hfail i (by omega) h2)
      exact ⟨this.1, by rw [this.2]; omega⟩

/-- The inner provider loop of `_do_range` as append of per-provider results. -/
theorem do_range_inner {α : Type} (fetch : ℤ → String → Except String (List α))
    (day : ℤ) :
    ∀ (srcs : List String) (acc : List α × List (String × ℤ × String)),
      srcs.foldl
        (fun acc src =>
          match fetch day src with
          | .error e => (acc.1, acc.2 ++ [(src, day, e)])
          | .ok rs => (acc.1 ++ rs, acc.2))
        acc =
      (acc.1 ++ srcs.flatMap (fun s =>
          match fetch day s with
          | .ok r => r
          | .error _ => []),
       acc.2 ++ srcs.filterMap (fun s =>
          match fetch day s with
          | .error e => some (s, day, e)
          | .ok _ => none)) := by
  intro srcs
  induction srcs with
  | nil => intro acc; simp
  | cons s t ih =>
    intro acc
    cases hf : fetch day s with
    | error e => simp [List.foldl_cons, hf, ih, List.append_assoc]
    | ok rs => simp [List.foldl_cons, hf, ih, List.append_assoc]

/-- Stability consequence of insertion sort: the subsequence of elements
satisfying `P` is untouched when all `P`-elements are mutually related
(here: equal sort keys). -/
theorem filter_insertionSort_of_equiv {α : Type} (r : α → α → Prop) [DecidableRel r]
    (P : α → Bool) :
    ∀ l : List α, (∀ x ∈ l, ∀ y ∈ l, P x → P y → r x y) →
      (l.insertionSort r).filter P = l.filter P := by
  intro l
  induction l with
  | nil => intro _; rfl
  | cons a t ih =>
    intro hP
    have ihP : ∀ x ∈ t, ∀ y ∈ t, P x → P y → r x y := fun x hx y hy =>
      hP x (List.mem_cons_of_mem a hx) y (List.mem_cons_of_mem a hy)
    rw [List.insertionSort, List.orderedInsert_eq_take_drop, List.filter_append,
      List.filter_cons]
    by_cases hPa : P a = true
    · rw [if_pos hPa]
      have htake : ((t.insertionSort r).takeWhile fun b => decide ¬r a b).filter P = [] := by
        rw [List.filter_eq_nil_iff]
        intro b hb
        have hbL : b ∈ t.insertionSort r :=
          (List.takeWhile_sublist _).subset hb
        have hbt : b ∈ t := (List.mem_insertionSort r).mp hbL
        intro hPb
        have hrel := hP a (List.mem_cons_self a t) b (List.mem_cons_of_mem a hbt) hPa hPb
        have hdec := List.mem_takeWhile_imp hb
        simp only [decide_eq_true_eq] at hdec
        exact hdec hrel
      rw [htake, List.nil_append]
      have hLsplit : ((t.insertionSort r).takeWhile fun b => decide ¬r a b).filter P ++
          ((t.insertionSort r).dropWhile fun b => decide ¬r a b).filter P =
          (t.insertionSort r).filter P := by
        rw [← List.filter_append, List.takeWhile_append_dropWhile]
      rw [htake, List.nil_append] at hLsplit
      rw [List.filter_cons, if_pos hPa, hLsplit, ih ihP]
    · rw [if_neg hPa]
      have hLsplit : ((t.insertionSort r).takeWhile fun b => decide ¬r a b).filter P ++
          ((t.insertionSort r).dropWhile fun b => decide ¬r a b).filter P =
          (t.insertionSort r).filter P := by
        rw [← List.filter_append, List.takeWhile_append_dropWhile]
      rw [hLsplit, ih ihP, List.filter_cons, if_neg hPa]

/-- If position `j` holds a `P`-row and no later position does, the filtered
list ends exactly with that row. -/
theorem filter_getLast_at (P : List String → Bool) :
    ∀ (l : List (List String)) (j : ℕ), j < l.length → P (l.getD j []) →
      (∀ j', j < j' → j' < l.length → ¬ P (l.getD j' [])) →
      (l.filter P).getLast? = some (l.getD j []) := by
  intro l
  induction l with
  | nil => intro j h; simp at h
  | cons a t ih =>
    intro j hj hP hafter
    cases j with
    | zero =>
      have htnil : t.filter P = [] := by
        rw [List.filter_eq_nil_iff]
        intro b hb hPb
        obtain ⟨i, hi, hieq⟩ := List.getElem_of_mem hb
        have hgd : t.getD i [] = b := by
          rw [List.getD_eq_getElem t [] hi, hieq]
        have hcontra : P ((a :: t).getD (i + 1) []) = true := by
          rw [List.getD_cons_succ, hgd]
          exact hPb
        exact hafter (i + 1) (by omega) (by simpa using Nat.succ_lt_succ hi) hcontra
      rw [List.filter_cons]
      simp only [List.getD_cons_zero] at hP ⊢
      rw [if_pos hP, htnil]
      rfl
    | succ j2 =>
      have hj2 : j2 < t.length := by simpa using hj
      have hP2 : P (t.getD j2 []) = true := by simpa using hP
      have hafter2 : ∀ j', j2 < j' → j' < t.length → ¬ P (t.getD j' []) := by
        intro j' hgt hlt
        have := hafter (j' + 1) (by omega) (by simpa using hlt)
        simpa using this
      have hrec := ih j2 hj2 hP2 hafter2
      rw [List.filter_cons]
      simp only [List.getD_cons_succ]
      by_cases hPa : P a = true
      · rw [if_pos hPa]
        cases hft : t.filter P with
        | nil => rw [hft] at hrec; exact absurd hrec (by simp)
        | cons c cs =>
          rw [hft] at hrec
          rw [List.getLast?_cons_cons]
          exact hrec
      · rw [if_neg hPa]
        exact hrec

/-- The last scheduled overwrite hitting position `j` (in the order the
classification emits them) is the last batch row whose key is indexed at
sheet row `j + 2` — under key-injectivity of the index at that position. -/
theorem lastWriteAt_classify (m : String → Option ℕ) (j : ℕ) (k0 : String)
    (hinj : ∀ k i, m k = some i → (i - 2 = j ↔ k = k0))
    (hk0 : (m k0).isSome) :
    ∀ rows : List (List (Option String)),
      lastWriteAt j (rows.filterMap fun r =>
        (m (rowKey (padded r))).map fun idx => (idx, padded r)) =
      ((rows.map padded).filter fun p => decide (mapKey p = k0)).getLast? := by
  intro rows
  induction rows with
  | nil => rfl
  | cons r rt ih =>
    rw [List.filterMap_cons, List.map_cons, List.filter_cons]
    cases hm : m (rowKey (padded r)) with
    | none =>
      have hPr : decide (mapKey (padded r) = k0) = false := by
        rw [decide_eq_false_iff_not]
        intro hkey
        rw [← rowKey_eq_mapKey (padded r) (padded_length r)] at hkey
        rw [← hkey, hm] at hk0
        simp at hk0
      rw [Option.map_none', hPr]
      simpa using ih
    | some i =>
      rw [Option.map_some']
      rw [lastWriteAt, ih]
      have hiff : (i - 2 = j) ↔ (mapKey (padded r) = k0) := by
        rw [← rowKey_eq_mapKey (padded r) (padded_length r)]
        exact hinj _ i hm
      cases hft : ((rt.map padded).filter fun p => decide (mapKey p = k0)) with
      | cons c cs =>
        simp only [hft]
        by_cases hPr : decide (mapKey (padded r) = k0) = true
        · rw [if_pos hPr, List.getLast?_cons_cons,
            List.getLast?_eq_getLast_of_ne_nil (List.cons_ne_nil c cs)]
        · rw [if_neg hPr,
            List.getLast?_eq_getLast_of_ne_nil (List.cons_ne_nil c cs)]
      | nil =>
        simp only [hft]
        by_cases hPr : decide (mapKey (padded r) = k0) = true
        · rw [if_pos hPr]
          have : i - 2 = j := hiff.mpr (by simpa using hPr)
          rw [if_pos this]
          rfl
        · rw [if_neg hPr]
          have : ¬ (i - 2 = j) := fun h =>
            hPr (by simpa using hiff.mp h)
          rw [if_neg this]
          rfl

/-- When a key misses the index, the appended block's key-`k` rows are
exactly the batch's key-`k` padded rows, in order. -/
theorem append_block_filter (m : String → Option ℕ) (k : String)
    (hmk : m k = none) :
    ∀ rows : List (List (Option String)),
      ((rows.filterMap fun r =>
          match m (rowKey (padded r)) with
          | some _ => none
          | none => some (padded r)).filter fun p => decide (mapKey p = k)) =
      ((rows.map padded).filter fun p => decide (mapKey p = k)) := by
  intro rows
  induction rows with
  | nil => rfl
  | cons r rt ih =>
    rw [List.filterMap_cons, List.map_cons]
    cases hm : m (rowKey (padded r)) with
    | some i =>
      have hPr : decide (mapKey (padded r) = k) = false := by
        rw [decide_eq_false_iff_not]
        intro hkey
        rw [← rowKey_eq_mapKey (padded r) (padded_length r)] at hkey
        rw [hkey, hmk] at hm
        exact Option.noConfusion hm
      simp only [List.filter_cons, hPr]
      exact ih
    | none =>
      simp only [List.filter_cons]
      by_cases hPr : decide (mapKey (padded r) = k) = true
      · rw [if_pos hPr, if_pos hPr, ih]
      · rw [if_neg hPr, if_neg hPr]
        exact ih

/-- Lists of equal length with equal defaulted reads are equal. -/
theorem list_eq_of_getD {α : Type} (d : α) :
    ∀ (l l' : List α), l.length = l'.length →
      (∀ j, j < l.length → l.getD j d = l'.getD j d) → l = l' := by
  intro l
  induction l with
  | nil =>
    intro l' hlen _
    cases l' with
    | nil => rfl
    | cons b t' => simp at hlen
  | cons a t ih =>
    intro l' hlen hpt
    cases l' with
    | nil => simp at hlen
    | cons b t' =>
      have h0 : a = b := by simpa using hpt 0 (by simp)
      have hrest : t = t' := by
        refine ih t' (by simpa using hlen) ?_
        intro j hj
        simpa using hpt (j + 1) (by simpa using Nat.succ_lt_succ hj)
      rw [h0, hrest]

/-- On a store that fits inside the capped read range, an index miss is
exactly a `lastPos` miss. -/
theorem read_map_none_iff (store : List (List String))
    (hcap : store.length ≤ READ_CAP) (k : String) :
    read_existing_map store k = none ↔ lastPos k store = none := by
  rw [read_existing_map, List.take_of_length_le hcap, readMapGo_eq_lastPos]
  cases h : lastPos k store <;> simp

/-- On a store that fits inside the capped read range, an index hit names the
2-based sheet row of the key's last occurrence. -/
theorem read_map_some_iff (store : List (List String))
    (hcap : store.length ≤ READ_CAP) (k : String) (i : ℕ) :
    read_existing_map store k = some i ↔
      ∃ j, lastPos k store = some j ∧ i = 2 + j := by
  rw [read_existing_map, List.take_of_length_le hcap, readMapGo_eq_lastPos]
  cases h : lastPos k store with
  | none => simp
  | some j => simp [eq_comm]

/-- Two keys indexed at the same data position are the same key. -/
theorem read_map_inj (store : List (List String))
    (hcap : store.length ≤ READ_CAP) (k k' : String) (i i' : ℕ)
    (h : read_existing_map store k = some i)
    (h' : read_existing_map store k' = some i')
    (he : i - 2 = i' - 2) : k = k' := by
  obtain ⟨j, hj, hi⟩ := (read_map_some_iff store hcap k i).mp h
  obtain ⟨j', hj', hi'⟩ := (read_map_some_iff store hcap k' i').mp h'
  have hjj : j = j' := by omega
  subst hjj
  obtain ⟨_, _, hk, _⟩ := lastPos_spec k store j hj
  obtain ⟨_, _, hk', _⟩ := lastPos_spec k' store j hj'
  rw [← hk, hk']

/-- A live row with the key guarantees an index hit, provided the store fits
inside the capped read range. -/
theorem read_some_of_live (S : List (List String))
    (hcap : S.length ≤ READ_CAP) (k : String)
    (h : ∃ x ∈ S, mapCond x ∧ mapKey x = k) :
    (read_existing_map S k).isSome := by
  rcases h with ⟨x, hx, hc, hk⟩
  cases hr : read_existing_map S k with
  | some i => rfl
  | none =>
    have hnone := (read_map_none_iff S hcap k).mp hr
    exact absurd ⟨hc, hk⟩ ((lastPos_none_forall k S).mp hnone x hx)

/-- Core of idempotence: after one `append_rows` call the rows carrying a
given batch key, read in store order, end with exactly the last batch row of
that key — overwrites rewrote the key's indexed position with it, appends
put the key's batch rows (in order) at the end, and the date sort cannot
reorder the equal-dated key family. -/
theorem appended_store_filter (rows : List (List (Option String)))
    (store : List (List String)) (hlen : store.length ≤ READ_CAP)
    (hcanon : ∀ r ∈ rows, canonicalRow r)
    (r : List (Option String)) (hr : r ∈ rows) :
    ((append_rows rows store).filter fun p =>
        decide (mapKey p = rowKey (padded r))).getLast? =
      ((rows.map padded).filter fun p =>
        decide (mapKey p = rowKey (padded r))).getLast? := by
  cases rows with
  | nil => simp at hr
  | cons r0 rt =>
    set k := rowKey (padded r) with hkdef
    set m := read_existing_map store with hmdef
    have hcanr : canonicalRow r := hcanon r hr
    -- the classification in closed form
    have hcf : classifyRows m (r0 :: rt) =
        ((r0 :: rt).filterMap (fun x =>
            (m (rowKey (padded x))).map fun idx => (idx, padded x)),
         (r0 :: rt).filterMap (fun x =>
            match m (rowKey (padded x)) with
            | some _ => none
            | none => some (padded x))) := by
      have h := classifyRows_eq m (r0 :: rt) ([], [])
      simpa [classifyRows] using h
    have htu1 : (classifyRows m (r0 :: rt)).1 =
        (r0 :: rt).filterMap (fun x =>
          (m (rowKey (padded x))).map fun idx => (idx, padded x)) := by rw [hcf]
    have hta1 : (classifyRows m (r0 :: rt)).2 =
        (r0 :: rt).filterMap (fun x =>
          match m (rowKey (padded x)) with
          | some _ => none
          | none => some (padded x)) := by rw [hcf]
    have happ : append_rows (r0 :: rt) store =
        (((r0 :: rt).filterMap (fun x =>
            (m (rowKey (padded x))).map fun idx => (idx, padded x))).foldl
              applyUpdate store ++
          (r0 :: rt).filterMap (fun x =>
            match m (rowKey (padded x)) with
            | some _ => none
            | none => some (padded x))).insertionSort dateLe := by
      simp only [append_rows]
      rw [if_neg (by simp), ← hmdef, htu1, hta1]
    rw [happ]
    set tu := (r0 :: rt).filterMap (fun x =>
      (m (rowKey (padded x))).map fun idx => (idx, padded x)) with htudef
    set ta := (r0 :: rt).filterMap (fun x =>
      match m (rowKey (padded x)) with
      | some _ => none
      | none => some (padded x)) with htadef
    set U1 := tu.foldl applyUpdate store with hU1def
    -- the key family has one date, so the sort keeps its order
    have hequiv : ∀ x ∈ U1 ++ ta, ∀ y ∈ U1 ++ ta,
        decide (mapKey x = k) → decide (mapKey y = k) → dateLe x y := by
      intro x _ y _ hx hy
      have hx' : mapKey x = k := by simpa using hx
      have hy' : mapKey y = k := by simpa using hy
      have hdx := (mapKey_match_canonical x r hcanr hx').1
      have hdy := (mapKey_match_canonical y r hcanr hy').1
      rw [dateLe, hdx, hdy]
    rw [filter_insertionSort_of_equiv dateLe _ (U1 ++ ta) hequiv,
      List.filter_append]
    -- the batch contains the key, so the right side is nonempty
    have hPr : decide (mapKey (padded r) = k) = true := by
      rw [decide_eq_true_eq, hkdef]
      exact (rowKey_eq_mapKey (padded r) (padded_length r)).symm
    cases hm : m k with
    | some i =>
      obtain ⟨j0, hlp, hi⟩ := (read_map_some_iff store hlen k i).mp (hmdef ▸ hm)
      have hij : i - 2 = j0 := by omega
      obtain ⟨hjlen, hcond0, hkey0, hnolater⟩ := lastPos_spec k store j0 hlp
      -- appended rows never carry an indexed key
      have hta_nil : ta.filter (fun p => decide (mapKey p = k)) = [] := by
        rw [List.filter_eq_nil_iff]
        intro p hp hPp
        rw [htadef] at hp
        rcases List.mem_filterMap.mp hp with ⟨x, _, hx⟩
        rcases hmx : m (rowKey (padded x)) with _ | ix
        · rw [hmx] at hx
          simp only [Option.some.injEq] at hx
          subst hx
          have : rowKey (padded x) = k := by
            rw [← rowKey_eq_mapKey (padded x) (padded_length x)] at hPp
            simpa using hPp
          rw [this, hm] at hmx
          exact Option.noConfusion hmx
        · rw [hmx] at hx
          exact Option.noConfusion hx
      rw [hta_nil, List.append_nil]
      -- the last overwrite at the indexed position is the last batch row
      have hinj : ∀ k' i', m k' = some i' → (i' - 2 = j0 ↔ k' = k) := by
        intro k' i' hk'
        constructor
        · intro he
          exact read_map_inj store hlen k' k i' i (hmdef ▸ hk') (hmdef ▸ hm) (by omega)
        · intro he
          subst he
          rw [hm] at hk'
          have : i = i' := by simpa using hk'
          omega
      have hlw := lastWriteAt_classify m j0 k hinj (by rw [hm]; rfl) (r0 :: rt)
      have hpads_ne : ((r0 :: rt).map padded).filter
          (fun p => decide (mapKey p = k)) ≠ [] := by
        intro hemp
        have : padded r ∈ ((r0 :: rt).map padded).filter
            (fun p => decide (mapKey p = k)) :=
          List.mem_filter.mpr ⟨List.mem_map_of_mem padded hr, hPr⟩
        rw [hemp] at this
        simp at this
      obtain ⟨w, hw⟩ : ∃ w, (((r0 :: rt).map padded).filter
          (fun p => decide (mapKey p = k))).getLast? = some w :=
        ⟨_, List.getLast?_eq_getLast_of_ne_nil hpads_ne⟩
      have hUj : U1.getD j0 [] = w := by
        rw [hU1def, foldl_applyUpdate_getD tu store j0 hjlen, htudef, hlw, hw]
      have hPw : decide (mapKey w = k) = true := by
        have hmem : w ∈ ((r0 :: rt).map padded).filter
            (fun p => decide (mapKey p = k)) := by
          rcases List.mem_getLast?_eq_getLast (Option.mem_def.mpr hw) with ⟨hne, hbe⟩
          rw [hbe]
          exact List.getLast_mem hne
        exact (List.mem_filter.mp hmem).2
      have hUlen : j0 < U1.length := by
        rw [hU1def, foldl_applyUpdate_length]
        exact hjlen
      have hfu : (U1.filter fun p => decide (mapKey p = k)).getLast? =
          some (U1.getD j0 []) := by
        refine filter_getLast_at _ U1 j0 hUlen ?_ ?_
        · rw [hUj]
          exact hPw
        · intro j' hgt hlt
          have hlt2 : j' < store.length := by
            rw [hU1def, foldl_applyUpdate_length] at hlt
            exact hlt
          rw [hU1def, foldl_applyUpdate_getD tu store j' hlt2]
          cases hw' : lastWriteAt j' tu with
          | some v =>
            obtain ⟨i', hmem', hij'⟩ := lastWriteAt_mem tu j' v hw'
            rw [htudef] at hmem'
            rcases List.mem_filterMap.mp hmem' with ⟨x, _, hx⟩
            rcases hmx : m (rowKey (padded x)) with _ | ix
            · rw [hmx] at hx
              exact absurd hx (by simp)
            · rw [hmx] at hx
              simp only [Option.map_some', Option.some.injEq, Prod.mk.injEq] at hx
              obtain ⟨hix, hvx⟩ := hx
              intro hPv
              have hkx : rowKey (padded x) = k := by
                rw [← hvx] at hPv
                rw [← rowKey_eq_mapKey (padded x) (padded_length x)] at hPv
                simpa using hPv
              rw [hkx, hm] at hmx
              have : i = ix := by simpa using hmx
              omega
          | none =>
            intro hPv
            have hkey' : mapKey (store.getD j' []) = k := by simpa using hPv
            have hcond' := (mapKey_match_canonical (store.getD j' []) r hcanr
              (by rw [hkey', hkdef])).2
            exact hnolater j' hgt hlt2 ⟨hcond', hkey'⟩
      rw [hfu, hUj, hw]
    | none =>
      have hlpn : lastPos k store = none :=
        (read_map_none_iff store hlen k).mp (hmdef ▸ hm)
      -- no store row and no overwritten row carries the key
      have hU_nil : U1.filter (fun p => decide (mapKey p = k)) = [] := by
        rw [List.filter_eq_nil_iff]
        intro p hp hPp
        obtain ⟨j', hj', hpe⟩ := List.getElem_of_mem hp
        have hgd : U1.getD j' [] = p := by
          rw [List.getD_eq_getElem U1 [] hj', hpe]
        have hj'store : j' < store.length := by
          rw [hU1def, foldl_applyUpdate_length] at hj'
          exact hj'
        rw [hU1def, foldl_applyUpdate_getD tu store j' hj'store] at hgd
        rcases hw' : lastWriteAt j' tu with _ | v
        · simp only [hw'] at hgd
          have hkey' : mapKey (store.getD j' []) = k := by
            rw [hgd]
            simpa using hPp
          have hcond' := (mapKey_match_canonical (store.getD j' []) r hcanr
            (by rw [hkey', hkdef])).2
          exact (lastPos_none_forall k store).mp hlpn (store.getD j' [])
            (getD_mem_of_lt store [] hj'store) ⟨hcond', hkey'⟩
        · simp only [hw'] at hgd
          obtain ⟨i', hmem', _⟩ := lastWriteAt_mem tu j' v hw'
          rw [htudef] at hmem'
          rcases List.mem_filterMap.mp hmem' with ⟨x, _, hx⟩
          rcases hmx : m (rowKey (padded x)) with _ | ix
          · rw [hmx] at hx
            exact absurd hx (by simp)
          · rw [hmx] at hx
            simp only [Option.map_some', Option.some.injEq, Prod.mk.injEq] at hx
            obtain ⟨_, hvx⟩ := hx
            have hkx : rowKey (padded x) = k := by
              rw [rowKey_eq_mapKey (padded x) (padded_length x), hvx, hgd]
              simpa using hPp
            rw [hkx, hm] at hmx
            exact Option.noConfusion hmx
      rw [hU_nil, List.nil_append, htadef, append_block_filter m k hm (r0 :: rt)]

/-- One `append_rows` call grows the store by at most the batch size:
overwrites keep the length, and at most one row is appended per batch row. -/
theorem append_rows_length_le (rows : List (List (Option String)))
    (store : List (List String)) :
    (append_rows rows store).length ≤ store.length + rows.length := by
  cases rows with
  | nil => simp [append_rows]
  | cons r0 rt =>
    simp only [append_rows]
    rw [if_neg (by simp)]
    have hcf : classifyRows (read_existing_map store) (r0 :: rt) =
        ((r0 :: rt).filterMap (fun x =>
            (read_existing_map store (rowKey (padded x))).map
              fun idx => (idx, padded x)),
         (r0 :: rt).filterMap (fun x =>
            match read_existing_map store (rowKey (padded x)) with
            | some _ => none
            | none => some (padded x))) := by
      have h := classifyRows_eq (read_existing_map store) (r0 :: rt) ([], [])
      simpa [classifyRows] using h
    have hta : (classifyRows (read_existing_map store) (r0 :: rt)).2 =
        (r0 :: rt).filterMap (fun x =>
          match read_existing_map store (rowKey (padded x)) with
          | some _ => none
          | none => some (padded x)) := by
      rw [hcf]
    rw [List.length_insertionSort, List.length_append, foldl_applyUpdate_length, hta]
    have hle := List.length_filterMap_le (fun x =>
      match read_existing_map store (rowKey (padded x)) with
      | some _ => none
      | none => some (padded x)) (r0 :: rt)
    omega

/-- Replicated rows are date-sorted. -/
theorem sorted_replicate (n : ℕ) (x : List String) :
    (List.replicate n x).Sorted dateLe := by
  induction n with
  | zero => simp
  | succ k ih =>
    rw [List.replicate_succ, List.sorted_cons]
    refine ⟨fun b hb => ?_, ih⟩
    rw [List.eq_of_mem_replicate hb]
    exact le_refl (dateOf x)

/-- The beyond-cap scenario store shape is date-sorted for any number of key
rows at its tail (the fillers are dated one day earlier). -/
theorem capBlock_sorted (j : ℕ) :
    (List.replicate READ_CAP fillerRow ++
      List.replicate j (padded cexRow)).Sorted dateLe := by
  show List.Pairwise dateLe _
  rw [List.pairwise_append]
  refine ⟨sorted_replicate _ _, sorted_replicate _ _, ?_⟩
  intro a ha b hb
  rw [List.eq_of_mem_replicate ha, List.eq_of_mem_replicate hb]
  have hf : dateOf fillerRow = "2025-01-09" := rfl
  have hp : dateOf (padded cexRow) = "2025-01-10" := rfl
  rw [dateLe, hf, hp]
  exact le_of_lt (by rw [String.lt_iff_toList_lt]; decide)

/-- A key no stored row carries inside the scanned prefix passes through
`readMapGo` to the accumulated map unchanged. -/
theorem readMapGo_skip (k : String) :
    ∀ (l : List (List String)) (i : ℕ) (m : String → Option ℕ),
      (∀ r ∈ l, ¬(mapCond r ∧ mapKey r = k)) →
      readMapGo i l m k = m k := by
  intro l
  induction l with
  | nil => intro i m _; rfl
  | cons r t ih =>
    intro i m h
    rw [readMapGo]
    have hr := h r (List.mem_cons_self r t)
    have ht : ∀ x ∈ t, ¬(mapCond x ∧ mapKey x = k) :=
      fun x hx => h x (List.mem_cons_of_mem r hx)
    by_cases hc : mapCond r
    · rw [if_pos hc, ih (i + 1) (mapInsert m (mapKey r) i) ht, mapInsert]
      rw [if_neg (fun he => hr ⟨hc, he.symm⟩)]
    · rw [if_neg hc, ih (i + 1) m ht]

/-- The capped read of the scenario store misses `cexRow`'s key: the indexed
range `A2:…100000` holds only filler rows, which carry a different key. -/
theorem capStore_read_none (j : ℕ) :
    read_existing_map
      (List.replicate READ_CAP fillerRow ++ List.replicate j (padded cexRow))
      (rowKey (padded cexRow)) = none := by
  rw [read_existing_map, List.take_left' (List.length_replicate _ _)]
  refine readMapGo_skip _ _ 2 _ ?_
  intro r hrmem
  rw [List.eq_of_mem_replicate hrmem]
  intro hcontra
  exact absurd hcontra.2 (by decide)

/-- Classification of a one-row batch whose key the index misses: no
overwrite, one append. -/
theorem classify_single (m : String → Option ℕ) (r : List (Option String))
    (hm : m (rowKey (padded r)) = none) :
    classifyRows m [r] = ([], [padded r]) := by
  rw [classifyRows]
  simp only [List.foldl_cons, List.foldl_nil, hm, List.nil_append]

/-- One `append_rows` call on the beyond-cap scenario store: the capped read
misses the key, so the batch row is classified as an append and one more copy
joins the key's tail block. -/
theorem append_cap_step (j : ℕ) :
    append_rows [cexRow]
        (List.replicate READ_CAP fillerRow ++ List.replicate j (padded cexRow)) =
      List.replicate READ_CAP fillerRow ++
        List.replicate (j + 1) (padded cexRow) := by
  have hcls := classify_single
    (read_existing_map
      (List.replicate READ_CAP fillerRow ++ List.replicate j (padded cexRow)))
    cexRow (capStore_read_none j)
  simp only [append_rows]
  rw [if_neg (by simp)]
  have h1 : (classifyRows (read_existing_map
      (List.replicate READ_CAP fillerRow ++ List.replicate j (padded cexRow)))
        [cexRow]).1 = [] := by rw [hcls]
  have h2 : (classifyRows (read_existing_map
      (List.replicate READ_CAP fillerRow ++ List.replicate j (padded cexRow)))
        [cexRow]).2 = [padded cexRow] := by rw [hcls]
  rw [h1, h2, List.foldl_nil]
  have hshape : List.replicate READ_CAP fillerRow ++
      List.replicate j (padded cexRow) ++ [padded cexRow] =
      List.replicate READ_CAP fillerRow ++
        List.replicate (j + 1) (padded cexRow) := by
    rw [List.append_assoc, ← List.replicate_succ']
  rw [hshape]
  exact List.Sorted.insertionSort_eq (capBlock_sorted (j + 1))

/-! ## Claim theorems -/

/-- C4: for every input list of rows and every store state, entering the sink
through the sheets module fails before any store operation: the module binds
`HEADER = UnifiedRow.headers()` at load time, but `UnifiedRow` defines no
`headers` attribute, so the attribute lookup raises instead of running the
reconciliation protocol. -/
theorem append_rows_via_module_always_fails :
    ∀ (rows : List (List (Option String))) (store : List (List String)),
      append_rows_via_module rows store =
        .error "AttributeError: type object UnifiedRow has no attribute headers" := by
  intro rows store
  rfl

/-- C10: for every Garmin sleep payload timestamp `_to_hm` can parse (ISO
string, valid HH:MM string, or epoch seconds/milliseconds), the bedtime and
wake cells built by fetch_day equal the provider's wall-clock shifted exactly
one hour earlier, rendered `%H:%M` — e.g. an 08:30 bedtime is written as
"07:30", not as the provider's own 08:30, and 00:10 rolls back to "23:10". -/
theorem garmin_to_hm_shifts_one_hour_earlier :
    (∀ (ts : GarminTs) (w : ℤ), wallMinutes ts = some w →
        garminBedtimeHm ts = some (formatHM (w - 60)) ∧
        garminWakeHm ts = some (formatHM (w - 60))) ∧
    garminBedtimeHm (.hm 8 30) = some "07:30" ∧
    garminBedtimeHm (.hm 0 10) = some "23:10" ∧
    formatHM (8 * 60 + 30) = "08:30" := by
  refine ⟨?_, by decide, by decide, by decide⟩
  intro ts w hw
  cases ts with
  | epoch v =>
    simp only [wallMinutes, Option.some.injEq] at hw
    subst hw
    constructor <;>
      · simp only [garminBedtimeHm, garminWakeHm, to_hm]
        norm_num
        ring_nf
  | isoT t =>
    simp only [wallMinutes, Option.some.injEq] at hw
    subst hw
    constructor <;>
      · simp only [garminBedtimeHm, garminWakeHm, to_hm]
        norm_num
        ring_nf
  | hm hh mm =>
    simp only [wallMinutes] at hw
    by_cases hv : 0 ≤ hh ∧ hh < 24 ∧ 0 ≤ mm ∧ mm < 60
    · rw [if_pos hv] at hw
      simp only [Option.some.injEq] at hw
      subst hw
      constructor <;>
        · simp only [garminBedtimeHm, garminWakeHm, to_hm, if_pos hv]
          norm_num
          ring_nf
    · rw [if_neg hv] at hw
      exact absurd hw (by simp)
  | bad => simp [wallMinutes] at hw

/-- C10 witness: a concrete ISO timestamp at minute 510 (08:30) renders as
the wall-clock one hour earlier. -/
theorem garmin_to_hm_shifts_one_hour_earlier_witness :
    garminBedtimeHm (.isoT 510) = some (formatHM (510 - 60)) :=
  (garmin_to_hm_shifts_one_hour_earlier.1 (.isoT 510) 510 rfl).1

/-- C5: for every operation and every failure n, the sleep before the nth
retry equals `min(maxDelay, baseDelay * 2^(n-1))` times the nth jitter draw
(`sleeps[i]` is the sleep after failure `i+1`); the operation is called at
most `maxAttempts` times; and the rate-limit classification changes only the
log's `rate_limited` flags — never the outcome, the delays, or the attempt
count. -/
theorem retry_backoff_schedule {ε α : Type} (fn : ℕ → Except ε α) (jit : ℕ → ℚ)
    (isRL : ε → Bool) (maxAttempts : ℕ) (baseDelay maxDelay : ℚ) :
    (∀ i, i < (retry_with_backoff fn jit isRL maxAttempts baseDelay maxDelay).sleeps.length →
        (retry_with_backoff fn jit isRL maxAttempts baseDelay maxDelay).sleeps.get? i =
          some (min maxDelay (baseDelay * 2 ^ i) * jit (i + 1))) ∧
    (retry_with_backoff fn jit isRL maxAttempts baseDelay maxDelay).sleeps.length ≤ maxAttempts ∧
    (retry_with_backoff fn jit isRL maxAttempts baseDelay maxDelay).calls ≤ maxAttempts ∧
    (∀ isRL' : ε → Bool,
        (retry_with_backoff fn jit isRL' maxAttempts baseDelay maxDelay).result =
          (retry_with_backoff fn jit isRL maxAttempts baseDelay maxDelay).result ∧
        (retry_with_backoff fn jit isRL' maxAttempts baseDelay maxDelay).sleeps =
          (retry_with_backoff fn jit isRL maxAttempts baseDelay maxDelay).sleeps ∧
        (retry_with_backoff fn jit isRL' maxAttempts baseDelay maxDelay).calls =
          (retry_with_backoff fn jit isRL maxAttempts baseDelay maxDelay).calls ∧
        (retry_with_backoff fn jit isRL' maxAttempts baseDelay maxDelay).log.map dropRL =
          (retry_with_backoff fn jit isRL maxAttempts baseDelay maxDelay).log.map dropRL) := by
  obtain ⟨m, hm, hsl, hc⟩ :=
    retryGo_sleeps fn jit isRL baseDelay maxDelay maxAttempts 0 none [] 0 []
  simp only [retry_with_backoff] at hsl hc ⊢
  refine ⟨?_, ?_, by simpa using hc, ?_⟩
  · intro i hi
    rw [hsl] at hi ⊢
    simp only [List.nil_append, List.length_map, List.length_range] at hi
    rw [List.nil_append, List.get?_map, List.get?_range hi]
    simp
  · rw [hsl]
    simpa using hm
  · intro isRL'
    have h := retryGo_isRL_indep fn jit isRL' isRL baseDelay maxDelay
      maxAttempts 0 none [] 0 [] [] rfl
    exact h

/-- C5 witness: with an operation failing twice and unit jitter, the sleep
before the second retry is `min(60, 1 * 2^1) * 1`. -/
theorem retry_backoff_schedule_witness :
    (retry_with_backoff (fun _ => (.error 0 : Except ℕ ℕ)) (fun _ => 1)
      (fun _ => false) 2 1 60).sleeps.get? 1 =
      some (min 60 (1 * 2 ^ 1) * 1) :=
  (retry_backoff_schedule (fun _ => (.error 0 : Except ℕ ℕ)) (fun _ => 1)
    (fun _ => false) 2 1 60).1 1
    (by norm_num [retry_with_backoff, retryGo])

/-- C8: an operation failing on all attempts makes the retry wrapper re-raise
exactly the error of the final (maxAttempts-th) attempt, after exactly
maxAttempts calls; an operation succeeding at attempt k returns normally after
k+1 calls, so exhaustion is the only path that raises; and the driver loop
isolates failures per (date, provider) unit: the accumulated rows are exactly
the concatenation of every successful unit's rows in loop order, and one
warning naming the unit is emitted per failing unit, so a failing unit never
perturbs any other unit's rows. -/
theorem retry_exhaustion_and_driver_isolation {ε α : Type} :
    (∀ (fn : ℕ → Except ε α) (jit : ℕ → ℚ) (isRL : ε → Bool)
        (maxAttempts : ℕ) (baseDelay maxDelay : ℚ) (e : ε),
        1 ≤ maxAttempts →
        (∀ i, i < maxAttempts → ∃ err, fn i = .error err) →
        fn (maxAttempts - 1) = .error e →
        (retry_with_backoff fn jit isRL maxAttempts baseDelay maxDelay).result =
          .raised e ∧
        (retry_with_backoff fn jit isRL maxAttempts baseDelay maxDelay).calls =
          maxAttempts) ∧
    (∀ (fn : ℕ → Except ε α) (jit : ℕ → ℚ) (isRL : ε → Bool)
        (maxAttempts : ℕ) (baseDelay maxDelay : ℚ) (k : ℕ) (v : α),
        k < maxAttempts →
        fn k = .ok v →
        (∀ i, i < k → ∃ err, fn i = .error err) →
        (retry_with_backoff fn jit isRL maxAttempts baseDelay maxDelay).result =
          .ok v ∧
        (retry_with_backoff fn jit isRL maxAttempts baseDelay maxDelay).calls =
          k + 1) ∧
    (∀ (fetch : ℤ → String → Except String (List α)) (days : List ℤ)
        (srcs : List String),
        do_range fetch days srcs =
          (days.flatMap (fun d => srcs.flatMap fun s =>
              match fetch d s with
              | .ok r => r
              | .error _ => []),
           days.flatMap (fun d => srcs.filterMap fun s =>
              match fetch d s with
              | .error e => some (s, d, e)
              | .ok _ => none))) := by
  refine ⟨?_, ?_, ?_⟩
  · intro fn jit isRL maxAttempts baseDelay maxDelay e h1 hall hlast
    have := retryGo_all_fail fn jit isRL baseDelay maxDelay maxAttempts 0 none
      [] 0 [] e h1 (fun i hle hlt => hall i (by omega)) (by simpa using hlast)
    exact ⟨this.1, by simpa using this.2⟩
  · intro fn jit isRL maxAttempts baseDelay maxDelay k v hk hok hfail
    have := retryGo_first_success fn jit isRL baseDelay maxDelay maxAttempts 0
      none [] 0 [] k v (Nat.zero_le k) (by omega) hok
      (fun i hle hlt => hfail i hlt)
    exact ⟨this.1, by simpa using this.2⟩
  · intro fetch days srcs
    unfold do_range
    suffices h : ∀ (acc : List α × List (String × ℤ × String)),
        days.foldl
          (fun acc day =>
            srcs.foldl
              (fun acc src =>
                match fetch day src with
                | .error e => (acc.1, acc.2 ++ [(src, day, e)])
                | .ok rs => (acc.1 ++ rs, acc.2))
              acc)
          acc =
        (acc.1 ++ days.flatMap (fun d => srcs.flatMap fun s =>
            match fetch d s with
            | .ok r => r
            | .error _ => []),
         acc.2 ++ days.flatMap (fun d => srcs.filterMap fun s =>
            match fetch d s with
            | .error e => some (s, d, e)
            | .ok _ => none)) by
      simpa using h ([], [])
    induction days with
    | nil => intro acc; simp
    | cons d t ih =>
      intro acc
      rw [List.foldl_cons, do_range_inner fetch d srcs acc, ih]
      simp [List.append_assoc]

/-- C8 witness: two failing attempts with budget 2 re-raise the second error
after exactly two calls. -/
theorem retry_exhaustion_and_driver_isolation_witness :
    (retry_with_backoff (fun i => (.error i : Except ℕ ℕ)) (fun _ => 1)
      (fun _ => false) 2 1 60).result = .raised 1 ∧
    (retry_with_backoff (fun i => (.error i : Except ℕ ℕ)) (fun _ => 1)
      (fun _ => false) 2 1 60).calls = 2 :=
  (retry_exhaustion_and_driver_isolation (ε := ℕ) (α := ℕ)).1
    (fun i => .error i) (fun _ => 1) (fun _ => false) 2 1 60 1
    (by norm_num) (fun i _ => ⟨i, rfl⟩) rfl

/-- C3 counterexample: with day boundary at wall-clock 0, the single session
[176400, 180000) lies wholly outside the window [0, 86400) and has overlap 0,
yet oura's fallback selection returns it instead of none (its key
`(0.0, 0)` beats the initial best key `(-1.0, 0)`): the returned session has
no strictly positive overlap, and "none iff all overlaps ≤ 0" fails. -/
theorem window_selection_counterexample :
    pick_sleep_for_day [⟨some 176400, some 180000, some "sleep", some 3600⟩] 0 =
      some ⟨some 176400, some 180000, some "sleep", some 3600⟩ ∧
    overlap_seconds 176400 180000 0 86400 = 0 := by
  constructor
  · norm_num [pick_sleep_for_day, ouraFallbackStep, overlap_seconds, pairLt, preferN]
  · norm_num [overlap_seconds]

/-- C3 amended: polar's `_pick_record_for_day` satisfies the sound direction —
whenever it returns none, every session's overlap with the window is ≤ 0
(unparseable sessions scoring −1) — and oura's fallback `_pick_sleep_for_day`
returns none exactly when no session has both timestamps parseable; neither
guarantees a strictly positive overlap for the session it returns. -/
theorem window_overlap_amended :
    (∀ (items : List PolarItem) (dayStart : ℤ),
        pick_record_for_day items dayStart = none →
        ∀ it ∈ items, polarOverlap it dayStart ≤ 0) ∧
    (∀ (periods : List OuraPeriod) (dayStart : ℤ),
        pick_sleep_for_day periods dayStart = none ↔
          ∀ p ∈ periods, p.bedtimeStart = none ∨ p.bedtimeEnd = none) := by
  constructor
  · intro items dayStart hnone it hit
    cases items with
    | nil => simp at hit
    | cons a t =>
      simp only [pick_record_for_day] at hnone
      split at hnone
      · next c cs hcand =>
        exfalso
        have hne : ((c :: cs).insertionSort
            (lexLe2 polarContainKey fun _ => (0 : ℤ))) ≠ [] := by
          intro hemp
          have hlen := List.length_insertionSort
            (lexLe2 polarContainKey fun _ => (0 : ℤ)) (c :: cs)
          rw [hemp] at hlen
          simp at hlen
        rw [List.getLast?_eq_getLast_of_ne_nil hne] at hnone
        simp at hnone
      · next hcand =>
        split at hnone
        · next hlast =>
          exfalso
          have hne : ((a :: t).insertionSort
              (lexLe2 (fun it => polarOverlap it dayStart) polarDurKey)) ≠ [] := by
            intro hemp
            have hlen := List.length_insertionSort
              (lexLe2 (fun it => polarOverlap it dayStart) polarDurKey) (a :: t)
            rw [hemp] at hlen
            simp at hlen
          rw [List.getLast?_eq_getLast_of_ne_nil hne] at hlast
          simp at hlast
        · next best hlast =>
          split at hnone
          · next hle =>
            have hmem : it ∈ (a :: t).insertionSort
                (lexLe2 (fun it => polarOverlap it dayStart) polarDurKey) :=
              (List.mem_insertionSort _).mpr hit
            have hge := sorted_getLast_ge
              (List.sorted_insertionSort
                (lexLe2 (fun it => polarOverlap it dayStart) polarDurKey) (a :: t))
              hlast it hmem
            rw [lexLe2] at hge
            rcases hge with hlt | ⟨heq, _⟩
            · linarith
            · rw [heq]; exact hle
          · next hle =>
            simp at hnone
  · intro periods dayStart
    cases periods with
    | nil => simp [pick_sleep_for_day]
    | cons a t =>
      simp only [pick_sleep_for_day]
      exact ouraFallback_none_iff dayStart (dayStart + 86400) (a :: t)
        (none, -1, 0) rfl rfl

/-- C3 amended witness: a record with unparseable timestamps is scored −1,
so polar's none outcome correctly bounds it by 0. -/
theorem window_overlap_amended_witness :
    polarOverlap ⟨none, none, none, none, none⟩ 0 ≤ 0 :=
  window_overlap_amended.1 [⟨none, none, none, none, none⟩] 0
    (by simp [pick_record_for_day, polarEndInWindow, List.insertionSort,
      List.orderedInsert, polarOverlap])
    ⟨none, none, none, none, none⟩ (List.mem_singleton.mpr rfl)

/-- C6: among the sessions whose end falls inside the window, the containment
pass returns the maximum in the order main/long (the `long_sleep` tag) first,
then longer duration, then later end; it returns none exactly when no
session's end falls in the window; and on the spec scenario — A a main/long
sleep 23:30→00:10, B a nap 13:00→13:20, date 2025-01-10, midnight boundary —
the fetch-day selection (nap filter, then containment pass) picks A. -/
theorem containment_pass_selection_order :
    (∀ (periods : List OuraPeriod) (dayStart : ℤ) (p : OuraPeriod),
        pick_sleep_ending_in_day periods dayStart = some p →
        endsInWindow p dayStart ∧
        ∀ q ∈ periods, endsInWindow q dayStart →
          tripLe (preferN q, durQ q, endD q) (preferN p, durQ p, endD p)) ∧
    (∀ (periods : List OuraPeriod) (dayStart : ℤ),
        pick_sleep_ending_in_day periods dayStart = none →
        ∀ q ∈ periods, ¬ endsInWindow q dayStart) ∧
    oura_sleep_choice [scenarioMain, scenarioNap] 0 = some scenarioMain := by
  refine ⟨?_, ?_, ?_⟩
  · intro periods dayStart p hp
    cases periods with
    | nil => simp [pick_sleep_ending_in_day] at hp
    | cons a t =>
      simp only [pick_sleep_ending_in_day] at hp
      rcases Option.map_eq_some'.mp hp with ⟨tp, hlast, hproj⟩
      have htp_mem : tp ∈ (a :: t).filterMap
          (ouraContainCand dayStart (dayStart + 86400)) := by
        have h1 : tp ∈ ((a :: t).filterMap
            (ouraContainCand dayStart (dayStart + 86400))).insertionSort ouraCandLe := by
          rcases List.mem_getLast?_eq_getLast (Option.mem_def.mpr hlast) with ⟨hn, hbe⟩
          rw [hbe]
          exact List.getLast_mem hn
        exact (List.mem_insertionSort ouraCandLe).mp h1
      rcases List.mem_filterMap.mp htp_mem with ⟨q, hqmem, hq⟩
      cases hqe : q.bedtimeEnd with
      | none =>
        simp only [ouraContainCand, hqe] at hq
        exact Option.noConfusion hq
      | some e =>
        simp only [ouraContainCand, hqe] at hq
        by_cases hin : dayStart ≤ e ∧ e < dayStart + 86400
        · rw [if_pos hin] at hq
          have htp : tp = (preferN q, durQ q, e, q) := (Option.some.inj hq).symm
          have hpq : p = q := by rw [← hproj, htp]
          subst hpq
          refine ⟨⟨e, hqe, hin.1, hin.2⟩, ?_⟩
          intro q' hq'mem hq'in
          rcases hq'in with ⟨e', he', h1, h2⟩
          have hcq' : ouraContainCand dayStart (dayStart + 86400) q' =
              some (preferN q', durQ q', e', q') := by
            simp only [ouraContainCand, he']
            rw [if_pos ⟨h1, h2⟩]
          have hmem' : (preferN q', durQ q', e', q') ∈
              ((a :: t).filterMap
                (ouraContainCand dayStart (dayStart + 86400))).insertionSort ouraCandLe :=
            (List.mem_insertionSort ouraCandLe).mpr
              (List.mem_filterMap.mpr ⟨q', hq'mem, hcq'⟩)
          have hge := sorted_getLast_ge (List.sorted_insertionSort ouraCandLe _)
            hlast _ hmem'
          rw [htp] at hge
          have hEq : endD q' = e' := by simp [endD, he']
          have hEp : endD p = e := by simp [endD, hqe]
          rw [ouraCandLe, lexLe3] at hge
          rw [tripLe, lexLe3, hEq, hEp]
          simpa using hge
        · rw [if_neg hin] at hq
          simp at hq
  · intro periods dayStart hnone q hq hin
    cases periods with
    | nil => simp at hq
    | cons a t =>
      simp only [pick_sleep_ending_in_day] at hnone
      rcases hin with ⟨e, he, h1, h2⟩
      have hcq : ouraContainCand dayStart (dayStart + 86400) q =
          some (preferN q, durQ q, e, q) := by
        simp only [ouraContainCand, he]
        rw [if_pos ⟨h1, h2⟩]
      have hmem : (preferN q, durQ q, e, q) ∈
          ((a :: t).filterMap
            (ouraContainCand dayStart (dayStart + 86400))).insertionSort ouraCandLe :=
        (List.mem_insertionSort ouraCandLe).mpr
          (List.mem_filterMap.mpr ⟨q, hq, hcq⟩)
      rw [Option.map_eq_none'] at hnone
      have hne := List.ne_nil_of_mem hmem
      rw [List.getLast?_eq_getLast_of_ne_nil hne] at hnone
      simp at hnone
  · simp [oura_sleep_choice, non_naps, pick_sleep_ending_in_day, ouraContainCand,
      scenarioMain, scenarioNap, List.insertionSort, List.orderedInsert,
      preferN, durQ]

/-- C6 witness: the containment-pass maximality applied to the concrete
scenario list, extracting that A's end lies in the window. -/
theorem containment_pass_selection_order_witness :
    endsInWindow scenarioMain 0 :=
  (containment_pass_selection_order.1 [scenarioMain, scenarioNap] 0 scenarioMain
    (by simp [pick_sleep_ending_in_day, ouraContainCand, scenarioMain, scenarioNap,
      List.insertionSort, List.orderedInsert, preferN, durQ, ouraCandLe, lexLe3])).1

/-- C9 counterexample: `seconds_to_minutes` uses Python `round`, which rounds
halves to even; at 150 seconds the code yields 2 while round-half-up (the
claimed rule, restated by `secondsToMinutesSpecHalfUp`) yields 3. -/
theorem seconds_to_minutes_not_half_up :
    seconds_to_minutes (some 150) = some 2 ∧
    secondsToMinutesSpecHalfUp 150 = 3 ∧
    seconds_to_minutes (some 150) ≠ some (secondsToMinutesSpecHalfUp 150) := by
  have h1 : seconds_to_minutes (some 150) = some 2 := by
    norm_num [seconds_to_minutes, pyRound]
  have h2 : secondsToMinutesSpecHalfUp 150 = 3 := by
    norm_num [secondsToMinutesSpecHalfUp, decimalHalfUp]
  refine ⟨h1, h2, ?_⟩
  rw [h1, h2]
  simp

/-- C9 amended: the concrete evaluations of the claim hold
(`secondsToMinutes(90) = 2`, `metersToKm(1005) = 1.01`,
`speedAndPace(0) = (null, null)`), meters→kilometers rounds half UP to two
decimals, but seconds→minutes rounds half to EVEN: the returned minute count
is within 1/2 of `seconds/60` and is even at exact halves. -/
theorem unit_conversions_amended :
    seconds_to_minutes (some 90) = some 2 ∧
    meters_to_km (some 1005) = some (101/100) ∧
    mps_to_speed_and_pace (some 0) = (none, none) ∧
    mps_to_speed_and_pace none = (none, none) ∧
    (∀ (v : ℚ) (m : ℤ), seconds_to_minutes (some v) = some m →
        |v / 60 - (m : ℚ)| ≤ 1/2 ∧ (|v / 60 - (m : ℚ)| = 1/2 → m % 2 = 0)) ∧
    (∀ (v : ℚ), 0 ≤ v → ∀ (m : ℚ), meters_to_km (some v) = some m →
        ∃ n : ℤ, m = (n : ℚ) / 100 ∧ (v / 10 : ℚ) - 1/2 < n ∧ (n : ℚ) ≤ v / 10 + 1/2) := by
  refine ⟨by norm_num [seconds_to_minutes, pyRound],
    by norm_num [meters_to_km, round_2dp, decimalHalfUp],
    by simp [mps_to_speed_and_pace], by simp [mps_to_speed_and_pace], ?_, ?_⟩
  · intro v m hm
    simp only [seconds_to_minutes, Option.some.injEq] at hm
    subst hm
    set q : ℚ := v / 60 with hq
    have hfl : (⌊q⌋ : ℚ) ≤ q := Int.floor_le q
    have hfu : q < ⌊q⌋ + 1 := Int.lt_floor_add_one q
    unfold pyRound
    by_cases h1 : q - (⌊q⌋ : ℚ) < 1/2
    · rw [if_pos h1]
      constructor
      · rw [abs_le]; constructor <;> linarith
      · intro habs
        rw [abs_eq (by norm_num : (0:ℚ) ≤ 1/2)] at habs
        rcases habs with h | h <;> linarith
    · rw [if_neg h1]
      by_cases h2 : 1/2 < q - (⌊q⌋ : ℚ)
      · rw [if_pos h2]
        push_cast
        constructor
        · rw [abs_le]; constructor <;> linarith
        · intro habs
          rw [abs_eq (by norm_num : (0:ℚ) ≤ 1/2)] at habs
          rcases habs with h | h <;> linarith
      · rw [if_neg h2]
        have heq : q - (⌊q⌋ : ℚ) = 1/2 := le_antisymm (not_lt.mp h2) (not_lt.mp h1)
        by_cases h3 : ⌊q⌋ % 2 = 0
        · rw [if_pos h3]
          refine ⟨?_, fun _ => h3⟩
          rw [abs_le]; constructor <;> linarith
        · rw [if_neg h3]
          have h4 : ⌊q⌋ % 2 = 1 := by omega
          refine ⟨?_, fun _ => by omega⟩
          push_cast
          rw [abs_le]; constructor <;> linarith
  · intro v hv m hm
    simp only [meters_to_km, round_2dp, Option.some.injEq] at hm
    have hx : (0 : ℚ) ≤ v / 1000 * 100 := by positivity
    rw [decimalHalfUp, if_pos hx] at hm
    have hvv : v / 1000 * 100 = v / 10 := by ring
    rw [hvv] at hm
    refine ⟨⌊v / 10 + 1/2⌋, hm.symm, ?_, ?_⟩
    · have := Int.lt_floor_add_one (v / 10 + 1/2)
      linarith
    · have := Int.floor_le (v / 10 + 1/2)
      linarith

/-- C9 amended witness: the half-even bound applied at 90 seconds, and the
half-up interval applied at 1005 meters. -/
theorem unit_conversions_amended_witness :
    |(90 : ℚ) / 60 - ((2 : ℤ) : ℚ)| ≤ 1/2 ∧
    ∃ n : ℤ, (101 / 100 : ℚ) = (n : ℚ) / 100 ∧
      ((1005 : ℚ) / 10 : ℚ) - 1/2 < n ∧ (n : ℚ) ≤ (1005 : ℚ) / 10 + 1/2 :=
  ⟨(unit_conversions_amended.2.2.2.2.1 90 2
      (by norm_num [seconds_to_minutes, pyRound])).1,
   unit_conversions_amended.2.2.2.2.2 1005 (by norm_num) (101/100)
      (by norm_num [meters_to_km, round_2dp, decimalHalfUp])⟩

/-- C1 amended: appendRows is idempotent as long as the store stays inside
the capped read range of `_read_existing_map` (`A2:…100000`).  For every
batch of canonical rows (nonempty bar-free date and source, bar-free record
id — the shape every `UnifiedRow.as_row()` yields) and every starting store
that together with the batch fits under the 99999 indexed data rows, running
`append_rows` twice with the same batch leaves the store of the first run
untouched: the second run finds every key in the rebuilt index, schedules
no appends, overwrites each indexed position with the value it already
holds, and re-sorts an already sorted range.  (Beyond the cap idempotence
fails — see the counterexample.) -/
theorem append_rows_idempotent_amended (rows : List (List (Option String)))
    (store : List (List String))
    (hcanon : ∀ r ∈ rows, canonicalRow r)
    (hcap : store.length + rows.length ≤ READ_CAP) :
    append_rows rows (append_rows rows store) = append_rows rows store := by
  cases rows with
  | nil => rfl
  | cons r0 rt =>
    have hstore_cap : store.length ≤ READ_CAP :=
      le_trans (Nat.le_add_right _ _) hcap
    set S1 := append_rows (r0 :: rt) store with hS1def
    have hS1cap : S1.length ≤ READ_CAP := by
      have hle := append_rows_length_le (r0 :: rt) store
      rw [← hS1def] at hle
      exact le_trans hle hcap
    have hS1sorted : S1.Sorted dateLe := by
      rw [hS1def]
      simp only [append_rows]
      rw [if_neg (by simp)]
      exact List.sorted_insertionSort dateLe _
    have hfound : ∀ r ∈ r0 :: rt,
        (read_existing_map S1 (rowKey (padded r))).isSome := by
      intro r hr
      have hflt := appended_store_filter (r0 :: rt) store hstore_cap hcanon r hr
      rw [← hS1def] at hflt
      have hPr : decide (mapKey (padded r) = rowKey (padded r)) = true := by
        rw [decide_eq_true_eq]
        exact (rowKey_eq_mapKey (padded r) (padded_length r)).symm
      have hpads_ne : (((r0 :: rt).map padded).filter
          (fun p => decide (mapKey p = rowKey (padded r)))) ≠ [] := by
        intro hemp
        have hmem : padded r ∈ ((r0 :: rt).map padded).filter
            (fun p => decide (mapKey p = rowKey (padded r))) :=
          List.mem_filter.mpr ⟨List.mem_map_of_mem padded hr, hPr⟩
        rw [hemp] at hmem
        simp at hmem
      obtain ⟨w, hw⟩ : ∃ w, (((r0 :: rt).map padded).filter
          (fun p => decide (mapKey p = rowKey (padded r)))).getLast? = some w :=
        ⟨_, List.getLast?_eq_getLast_of_ne_nil hpads_ne⟩
      rw [hw] at hflt
      have hwmem : w ∈ S1.filter (fun p => decide (mapKey p = rowKey (padded r))) := by
        rcases List.mem_getLast?_eq_getLast (Option.mem_def.mpr hflt) with ⟨hne, hbe⟩
        rw [hbe]
        exact List.getLast_mem hne
      have hwS1 := (List.mem_filter.mp hwmem).1
      have hwkey : mapKey w = rowKey (padded r) := by
        have := (List.mem_filter.mp hwmem).2
        simpa using this
      have hwcond := (mapKey_match_canonical w r (hcanon r hr) hwkey).2
      exact read_some_of_live S1 hS1cap _ ⟨w, hwS1, hwcond, hwkey⟩
    have hcf2 : classifyRows (read_existing_map S1) (r0 :: rt) =
        ((r0 :: rt).filterMap (fun x =>
            (read_existing_map S1 (rowKey (padded x))).map fun idx => (idx, padded x)),
         (r0 :: rt).filterMap (fun x =>
            match read_existing_map S1 (rowKey (padded x)) with
            | some _ => none
            | none => some (padded x))) := by
      have h := classifyRows_eq (read_existing_map S1) (r0 :: rt) ([], [])
      simpa [classifyRows] using h
    have htu2 : (classifyRows (read_existing_map S1) (r0 :: rt)).1 =
        (r0 :: rt).filterMap (fun x =>
          (read_existing_map S1 (rowKey (padded x))).map fun idx => (idx, padded x)) := by
      rw [hcf2]
    have hta2 : (classifyRows (read_existing_map S1) (r0 :: rt)).2 = [] := by
      rw [hcf2]
      simp only
      rw [List.filterMap_eq_nil_iff]
      intro x hx
      cases hmx : read_existing_map S1 (rowKey (padded x)) with
      | some i => rfl
      | none =>
        have hs := hfound x hx
        rw [hmx] at hs
        simp at hs
    have hfold : ((r0 :: rt).filterMap (fun x =>
        (read_existing_map S1 (rowKey (padded x))).map
          fun idx => (idx, padded x))).foldl applyUpdate S1 = S1 := by
      refine list_eq_of_getD [] _ _ (foldl_applyUpdate_length _ S1) ?_
      intro j hj
      have hjS1 : j < S1.length := by rwa [foldl_applyUpdate_length] at hj
      rw [foldl_applyUpdate_getD _ S1 j hjS1]
      cases hw : lastWriteAt j ((r0 :: rt).filterMap (fun x =>
          (read_existing_map S1 (rowKey (padded x))).map
            fun idx => (idx, padded x))) with
      | none => rfl
      | some v =>
        obtain ⟨i, hmemi, hij⟩ := lastWriteAt_mem _ j v hw
        rcases List.mem_filterMap.mp hmemi with ⟨x, hxmem, hx⟩
        rcases hmx : read_existing_map S1 (rowKey (padded x)) with _ | ix
        · rw [hmx] at hx
          exact absurd hx (by simp)
        · rw [hmx] at hx
          simp only [Option.map_some', Option.some.injEq, Prod.mk.injEq] at hx
          obtain ⟨hix, hvx⟩ := hx
          have hm2x : read_existing_map S1 (rowKey (padded x)) = some i := by
            rw [hmx, hix]
          obtain ⟨j0, hlp, hi2⟩ :=
            (read_map_some_iff S1 hS1cap (rowKey (padded x)) i).mp hm2x
          have hj0 : j0 = j := by omega
          subst hj0
          obtain ⟨hjlt, hcond0, hkey0, hnolater⟩ :=
            lastPos_spec (rowKey (padded x)) S1 j0 hlp
          have hinj : ∀ k' i', read_existing_map S1 k' = some i' →
              (i' - 2 = j0 ↔ k' = rowKey (padded x)) := by
            intro k' i' hk'
            constructor
            · intro he
              exact read_map_inj S1 hS1cap k' (rowKey (padded x)) i' i hk' hm2x
                (by omega)
            · intro he
              subst he
              rw [hm2x] at hk'
              have : i = i' := by simpa using hk'
              omega
          have hlw := lastWriteAt_classify (read_existing_map S1) j0
            (rowKey (padded x)) hinj (by rw [hm2x]; rfl) (r0 :: rt)
          have hflt := appended_store_filter (r0 :: rt) store hstore_cap hcanon
            x hxmem
          rw [← hS1def] at hflt
          have hfS1 : (S1.filter fun p =>
              decide (mapKey p = rowKey (padded x))).getLast? =
              some (S1.getD j0 []) := by
            refine filter_getLast_at _ S1 j0 hjlt ?_ ?_
            · simpa using hkey0
            · intro j' hgt hlt hPv
              have hkey' : mapKey (S1.getD j' []) = rowKey (padded x) := by
                simpa using hPv
              have hcond' := (mapKey_match_canonical (S1.getD j' []) x
                (hcanon x hxmem) hkey').2
              exact hnolater j' hgt hlt ⟨hcond', hkey'⟩
          rw [hfS1] at hflt
          have hw2 : (((r0 :: rt).map padded).filter fun p =>
              decide (mapKey p = rowKey (padded x))).getLast? = some v := by
            rw [← hlw]
            exact hw
          exact (Option.some.inj (hflt.trans hw2)).symm
    show append_rows (r0 :: rt) S1 = S1
    simp only [append_rows]
    rw [if_neg (by simp), htu2, hta2, List.append_nil, hfold]
    exact List.Sorted.insertionSort_eq hS1sorted

/-- C7 counterexample: `append_rows` returns before the sort step when the
batch is empty (`if not rows: return`), so a store whose data range is out of
order stays out of order after that call — the sort invariant does not hold
"after every append_rows call including a call with an empty row list". -/
theorem append_rows_empty_skips_sort :
    append_rows [] [["2025-01-02"], ["2025-01-01"]] =
      [["2025-01-02"], ["2025-01-01"]] ∧
    ¬ ([["2025-01-02"], ["2025-01-01"]] : List (List String)).Sorted dateLe := by
  constructor
  · rfl
  · intro hs
    have h := List.rel_of_sorted_cons hs _ (List.mem_singleton.mpr rfl)
    rw [dateLe] at h
    simp only [dateOf, List.headD_cons] at h
    have hlt : ("2025-01-01" : String) < "2025-01-02" := by
      rw [String.lt_iff_toList_lt]
      decide
    exact hlt.not_le h

/-- C7 amended: after every `append_rows` call with a nonempty batch the data
range is sorted ascending by the date column; a call with an empty batch
returns immediately and leaves the store byte-for-byte unchanged (including
an unsorted one). -/
theorem append_rows_sorted_amended :
    (∀ (rows : List (List (Option String))) (store : List (List String)),
        rows ≠ [] → (append_rows rows store).Sorted dateLe) ∧
    (∀ store : List (List String), append_rows [] store = store) := by
  constructor
  · intro rows store hne
    cases rows with
    | nil => exact absurd rfl hne
    | cons r t =>
      simp only [append_rows]
      rw [if_neg (by simp)]
      exact List.sorted_insertionSort dateLe _
  · intro store
    rfl

/-- C7 amended witness: one call with one row leaves a sorted store. -/
theorem append_rows_sorted_amended_witness :
    (append_rows [cexRow] []).Sorted dateLe :=
  append_rows_sorted_amended.1 [cexRow] [] (by simp)

/-- Canonicality of the concrete row. -/
theorem cexRow_canonical : canonicalRow cexRow := by
  refine ⟨?_, ?_, ?_, ?_, ?_⟩ <;> decide

/-- C1 counterexample: the key index is read only from sheet rows 2–100000
(`A2:…100000` in `_read_existing_map`), while appends and the date sort act
on the whole store.  On a store whose single key-bearing row was pushed past
data position 99998, each call misses the key and appends one more copy, so
the second call with the identical canonical batch changes the store. -/
theorem append_rows_not_idempotent_past_cap :
    (∀ r ∈ [cexRow], canonicalRow r) ∧
    append_rows [cexRow] (append_rows [cexRow] capStore) ≠
      append_rows [cexRow] capStore := by
  refine ⟨fun r hr => by rw [List.mem_singleton.mp hr]; exact cexRow_canonical, ?_⟩
  have h0 : capStore =
      List.replicate READ_CAP fillerRow ++ List.replicate 1 (padded cexRow) := by
    rw [capStore, List.replicate_one]
  rw [h0, append_cap_step 1, append_cap_step 2]
  intro h
  have hl := congrArg List.length h
  simp only [List.length_append, List.length_replicate] at hl
  omega

/-- C1 amended witness: a concrete canonical row written twice into an empty
store (well inside the read cap). -/
theorem append_rows_idempotent_amended_witness :
    append_rows [cexRow] (append_rows [cexRow] []) = append_rows [cexRow] [] :=
  append_rows_idempotent_amended [cexRow] []
    (fun r hr => by rw [List.mem_singleton.mp hr]; exact cexRow_canonical)
    (by decide)

/-- C2 counterexample: a batch holding the same fresh key twice appends two
rows (the index is read once, before the batch, and never extended during
it), so the store ends with two live rows sharing one composite key. -/
theorem append_rows_duplicate_key_counterexample :
    ¬ (liveKeys (append_rows [cexRow, cexRow] [])).Nodup := by
  have hcl : classifyRows (read_existing_map []) [cexRow, cexRow] =
      ([], [padded cexRow, padded cexRow]) := by
    simp [classifyRows, read_existing_map, readMapGo]
  have hsorted : (([] : List (List String)) ++ [padded cexRow, padded cexRow]).insertionSort dateLe =
      [padded cexRow, padded cexRow] := by
    refine List.Sorted.insertionSort_eq ?_
    simp [List.sorted_cons, dateLe]
  have h1 : append_rows [cexRow, cexRow] [] = [padded cexRow, padded cexRow] := by
    simp only [append_rows]
    rw [if_neg (by simp), hcl]
    simp only [List.foldl_nil, List.nil_append] at hsorted ⊢
    exact hsorted
  rw [h1]
  have hc : mapCond (padded cexRow) := canonical_mapCond cexRow cexRow_canonical
  simp [liveKeys, List.filter_cons, hc]

/-- C2 amended: the uniqueness invariant is preserved by `append_rows`
provided the batch itself contains no two rows with the same composite key
AND the starting store fits inside the capped read range of
`_read_existing_map` (`A2:…100000`, at most 99999 data rows): if such a
store has at most one live row per key and the batch's keys are pairwise
distinct (rows canonical), the resulting store again has at most one live
row per key.  (The counterexample shows the invariant is NOT restored when
the batch repeats a key absent from the store; a store whose only row with
the batch key sits past the read cap likewise gains a duplicate, since the
capped read misses it.) -/
theorem append_rows_unique_keys (rows : List (List (Option String)))
    (store : List (List String))
    (hcap : store.length ≤ READ_CAP)
    (hcanon : ∀ r ∈ rows, canonicalRow r)
    (hdist : (rows.map fun r => rowKey (padded r)).Nodup)
    (hstore : (liveKeys store).Nodup) :
    (liveKeys (append_rows rows store)).Nodup := by
  cases rows with
  | nil => simpa [append_rows] using hstore
  | cons r0 rt =>
    simp only [append_rows]
    rw [if_neg (by simp)]
    have hcf : classifyRows (read_existing_map store) (r0 :: rt) =
        ((r0 :: rt).filterMap (fun r =>
            (read_existing_map store (rowKey (padded r))).map fun idx => (idx, padded r)),
         (r0 :: rt).filterMap (fun r =>
            match read_existing_map store (rowKey (padded r)) with
            | some _ => none
            | none => some (padded r))) := by
      have h := classifyRows_eq (read_existing_map store) (r0 :: rt) ([], [])
      simpa [classifyRows] using h
    have htu1 : (classifyRows (read_existing_map store) (r0 :: rt)).1 =
        (r0 :: rt).filterMap (fun r =>
          (read_existing_map store (rowKey (padded r))).map fun idx => (idx, padded r)) := by
      rw [hcf]
    have hta1 : (classifyRows (read_existing_map store) (r0 :: rt)).2 =
        (r0 :: rt).filterMap (fun r =>
          match read_existing_map store (rowKey (padded r)) with
          | some _ => none
          | none => some (padded r)) := by
      rw [hcf]
    rw [htu1, hta1]
    set tu := (r0 :: rt).filterMap (fun r =>
      (read_existing_map store (rowKey (padded r))).map fun idx => (idx, padded r)) with htudef
    set ta := (r0 :: rt).filterMap (fun r =>
      match read_existing_map store (rowKey (padded r)) with
      | some _ => none
      | none => some (padded r)) with htadef
    rw [liveKeys_eq_filterMap]
    refine ((List.perm_insertionSort dateLe _).filterMap rowTag).nodup_iff.mpr ?_
    rw [List.filterMap_append]
    have hU : (tu.foldl applyUpdate store).filterMap rowTag = store.filterMap rowTag := by
      refine filterMap_rowTag_congr store (tu.foldl applyUpdate store)
        (foldl_applyUpdate_length tu store).symm ?_
      intro j hj
      rw [foldl_applyUpdate_getD tu store j hj]
      cases hw : lastWriteAt j tu with
      | none => rfl
      | some v =>
        obtain ⟨i, hmem, hij⟩ := lastWriteAt_mem tu j v hw
        rw [htudef] at hmem
        rcases List.mem_filterMap.mp hmem with ⟨r, hrmem, hr⟩
        rcases hex : read_existing_map store (rowKey (padded r)) with _ | idx
        · rw [hex] at hr
          exact absurd hr (by simp)
        · rw [hex] at hr
          simp only [Option.map_some', Option.some.injEq, Prod.mk.injEq] at hr
          obtain ⟨hidx, hv⟩ := hr
          have hlp : lastPos (rowKey (padded r)) store = some (idx - 2) := by
            obtain ⟨j0, hj0, hidx0⟩ := (read_map_some_iff store hcap _ idx).mp hex
            rw [show idx - 2 = j0 by omega]
            exact hj0
          rw [hidx] at hlp
          rw [hij] at hlp
          obtain ⟨hjlt, hcondS, hkeyS, _⟩ := lastPos_spec (rowKey (padded r)) store j hlp
          have hcanr := hcanon r hrmem
          have hcondv : mapCond v := by
            rw [← hv]
            exact canonical_mapCond r hcanr
          have hkeyv : mapKey v = rowKey (padded r) := by
            rw [← hv]
            exact (rowKey_eq_mapKey (padded r) (padded_length r)).symm
          rw [rowTag, rowTag, if_pos hcondv, if_pos hcondS, hkeyv, hkeyS]
    rw [hU]
    have htaKeys : ta.filterMap rowTag =
        (r0 :: rt).filterMap (fun r =>
          match read_existing_map store (rowKey (padded r)) with
          | some _ => none
          | none => some (rowKey (padded r))) := by
      rw [htadef, List.filterMap_filterMap]
      refine List.filterMap_congr ?_
      intro r hr
      cases hex : read_existing_map store (rowKey (padded r)) with
      | some idx =>
        show (none : Option (List String)).bind rowTag = (none : Option String)
        rfl
      | none =>
        have hcanr := hcanon r hr
        show (some (padded r)).bind rowTag = some (rowKey (padded r))
        rw [Option.some_bind, rowTag, if_pos (canonical_mapCond r hcanr),
          rowKey_eq_mapKey (padded r) (padded_length r)]
    have hnodupTa : (ta.filterMap rowTag).Nodup := by
      rw [htaKeys]
      refine List.Nodup.sublist ?_ hdist
      exact filterMap_sublist_map _ _
        (fun r => by
          cases hex : read_existing_map store (rowKey (padded r)) with
          | some idx => exact Or.inl (by simp)
          | none => exact Or.inr (by simp)) (r0 :: rt)
    refine List.Nodup.append ?_ hnodupTa ?_
    · rw [← liveKeys_eq_filterMap]
      exact hstore
    · intro k hkS hkTa
      rw [htaKeys] at hkTa
      rcases List.mem_filterMap.mp hkTa with ⟨r, _, hr⟩
      rcases hex : read_existing_map store (rowKey (padded r)) with _ | idx
      · rw [hex] at hr
        simp only [Option.some.injEq] at hr
        subst hr
        have hnone : lastPos (rowKey (padded r)) store = none :=
          (read_map_none_iff store hcap _).mp hex
        rw [← liveKeys_eq_filterMap] at hkS
        rcases (mem_liveKeys store _).mp hkS with ⟨x, hxmem, hxc, hxk⟩
        exact (lastPos_none_forall _ store).mp hnone x hxmem ⟨hxc, hxk⟩
      · rw [hex] at hr
        exact absurd hr (by simp)

/-- C2 amended witness: one canonical row into an empty store leaves unique
live keys. -/
theorem append_rows_unique_keys_witness :
    (liveKeys (append_rows [cexRow] [])).Nodup :=
  append_rows_unique_keys [cexRow] [] (by decide)
    (fun r hr => by rw [List.mem_singleton.mp hr]; exact cexRow_canonical)
    (by simp) (by simp [liveKeys])

end HealthSync
